import Mathlib

/-!
Formal model of the bellman XOR-sum demonstration program (`src/main.rs`).

The program proves knowledge of a 32-byte string whose bytes XOR-fold to a
known one-byte digest.  We shallowly embed:

* the native digest `native_xor_sum` and the demo `main` data (from the source),
* the constraint-system substrate, bit allocation, the XOR-of-two-Booleans
  rule and the public-input packer (bellman library code that is not part of
  this repository; each such definition is modelled from the spec and says so
  in its doc comment),
* the circuit `MyCircuit::synthesize` and the gadget `xor_sum` (from the source).

Field elements are `ZMod blsR` where `blsR` is the order of the BLS12-381
scalar field used by the program.  Panics (`assert_eq!`) are modelled by
`Option`-returning functions.
-/

def INPUT_SIZE : Nat := 32

/-- Order of the BLS12-381 scalar field (the field of `bls12_381::Scalar`). -/
def blsR : Nat := 52435875175126190479447740508185965837690552500527637822603658699938581184513

abbrev F := ZMod blsR

def boolToF (b : Bool) : F := if b then 1 else 0

/-- Modelled from the spec: a Variable is a handle into the Constraint
System.  bellman distinguishes the constant input `one`, public-input
variables and auxiliary (witness) variables. -/
inductive Var where
  | one : Var
  | input : Nat → Var
  | aux : Nat → Var
deriving DecidableEq

/-- A linear combination of variables with field coefficients. -/
abbrev LinComb := List (Var × F)

/-- Modelled from the spec: a Constraint is "a triple of linear combinations
(A, B, C) over variables and the constant term, asserting `A · B = C`". -/
abbrev Constraint := LinComb × LinComb × LinComb

/-- Modelled from the spec: the Constraint System, "an append-only ledger of
variables and linear constraints over a finite field, organized into
hierarchical namespaces".  Variable assignments are `Option F`: `none` during
structure-only synthesis, `some` during witnessed synthesis.  Each constraint
records its hierarchical namespace path. -/
structure CS where
  auxVals : List (Option F)
  inputVals : List (Option F)
  constraints : List Constraint
  constraintNames : List (List String)
deriving DecidableEq

def CS.empty : CS := ⟨[], [], [], []⟩

/-- Modelled from the spec: `enforce(namespace, A, B, C)` appends to the
constraint ledger. -/
def CS.enforce (cnm : List String) (c : Constraint) (cs : CS) : CS :=
  { cs with constraints := cs.constraints ++ [c],
            constraintNames := cs.constraintNames ++ [cnm] }

/-- Modelled from the spec: a witnessed bit — a backing variable plus its
(optionally known) value. -/
structure AllocatedBit where
  value : Option Bool
  var : Nat
deriving DecidableEq

/-- Modelled from the spec: Bit Allocation (§4.2). Allocates a fresh auxiliary
variable and "emits exactly one constraint `bit * (1 - bit) = 0`". -/
def AllocatedBit.alloc (cnm : List String) (value : Option Bool) (cs : CS) :
    AllocatedBit × CS :=
  let i := cs.auxVals.length
  let cs1 := { cs with auxVals := cs.auxVals ++ [value.map boolToF] }
  (⟨value, i⟩,
   CS.enforce cnm ([(Var.aux i, 1)], [(Var.one, 1), (Var.aux i, -1)], []) cs1)

/-- Modelled from the spec: the Boolean Value variant
(`Constant` / `Is` / `Not`). -/
inductive Boolean where
  | constant : Bool → Boolean
  | is : AllocatedBit → Boolean
  | not : AllocatedBit → Boolean
deriving DecidableEq

def Boolean.getValue : Boolean → Option Bool
  | .constant b => some b
  | .is a => a.value
  | .not a => a.value.map Bool.not

/-- Modelled from the spec: the contribution of a Boolean Value to a linear
combination, with coefficient `coeff`; a `Not` operand "is substituted as
`1 - underlying`". -/
def Boolean.lc (coeff : F) : Boolean → LinComb
  | .constant true => [(Var.one, coeff)]
  | .constant false => []
  | .is a => [(Var.aux a.var, coeff)]
  | .not a => [(Var.one, coeff), (Var.aux a.var, -coeff)]

/-- Modelled from the spec (§4.3): the witnessed-times-witnessed XOR case:
"allocate a new bit `out` and enforce exactly one multiplication constraint
encoding `out = a + b − 2ab`", written here as `(2a) · b = a + b - out`. -/
def xorWitnessed (cnm : List String) (cs : CS) (a b : Boolean) : Boolean × CS :=
  let outVal : Option Bool :=
    match a.getValue, b.getValue with
    | some x, some y => some (Bool.xor x y)
    | _, _ => none
  let i := cs.auxVals.length
  let cs1 := { cs with auxVals := cs.auxVals ++ [outVal.map boolToF] }
  (.is ⟨outVal, i⟩,
   CS.enforce cnm
     (a.lc 2, b.lc 1, a.lc 1 ++ b.lc 1 ++ [(Var.aux i, -1)]) cs1)

/-- Modelled from the spec: the XOR-of-two-Booleans rule (§4.3), written with
disjoint cases.  Constant-constant folds; XOR with `Constant(false)` is the
identity; XOR with `Constant(true)` is the free negation view; two witnessed
operands go through `xorWitnessed`. -/
def Boolean.xor (cnm : List String) (cs : CS) : Boolean → Boolean → Boolean × CS
  | .constant x, .constant y => (.constant (Bool.xor x y), cs)
  | .constant false, .is b => (.is b, cs)
  | .constant false, .not b => (.not b, cs)
  | .constant true, .is b => (.not b, cs)
  | .constant true, .not b => (.is b, cs)
  | .is a, .constant false => (.is a, cs)
  | .not a, .constant false => (.not a, cs)
  | .is a, .constant true => (.not a, cs)
  | .not a, .constant true => (.is a, cs)
  | .is a, .is b => xorWitnessed cnm cs (.is a) (.is b)
  | .is a, .not b => xorWitnessed cnm cs (.is a) (.not b)
  | .not a, .is b => xorWitnessed cnm cs (.not a) (.is b)
  | .not a, .not b => xorWitnessed cnm cs (.not a) (.not b)

/-- The namespace strings a synthesis run uses; `Naming.std` matches the
source.  Varying this structure varies exactly the namespace strings. -/
structure Naming where
  bitNs : Nat → String
  boolCon : String
  xorSumNs : String
  xorNs : Nat → String
  xorCon : String
  packNs : String
  packCon : Nat → String

def Naming.std : Naming where
  bitNs i := "preimage bit " ++ toString i
  boolCon := "boolean constraint"
  xorSumNs := "xor_sum(preimage)"
  xorNs i := "xor [" ++ toString i ++ "]"
  xorCon := "xor constraint"
  packNs := "pack hash"
  packCon i := "packing constraint " ++ toString i

/-- One pass of `xor_sum`'s inner loop: `byte.iter_mut().zip(chunk.iter())`
replaces each zipped accumulator entry by its XOR with the chunk entry. -/
def xorChunk (cnm : List String) : CS → List Boolean → List Boolean → List Boolean × CS
  | cs, [], _ => ([], cs)
  | cs, a :: acc, [] => (a :: acc, cs)
  | cs, a :: acc, b :: chunk =>
    let (x, cs1) := Boolean.xor cnm cs a b
    let (rest, cs2) := xorChunk cnm cs1 acc chunk
    (x :: rest, cs2)

/-- The outer loop of `xor_sum` over the enumerated 8-bit chunks; chunk `i`
is processed under namespace `xor [i]`. -/
def xorSumLoop (η : Naming) (nm : List String) :
    CS → Nat → List Boolean → List (List Boolean) → List Boolean × CS
  | cs, _, acc, [] => (acc, cs)
  | cs, i, acc, chunk :: rest =>
    let (acc1, cs1) := xorChunk (nm ++ [η.xorNs i, η.xorCon]) cs acc chunk
    xorSumLoop η nm cs1 (i + 1) acc1 rest

/-- Structural worker for `toChunks`: the fuel bounds the number of chunks
and is never exhausted when it starts at the list's length. -/
def chunksGo {α : Type} (n : Nat) : Nat → List α → List (List α)
  | _, [] => []
  | 0, a :: l => [a :: l]
  | fuel + 1, a :: l => (a :: l.take (n - 1)) :: chunksGo n fuel (l.drop (n - 1))

/-- `data.chunks n` of the Rust standard library: consecutive chunks of `n`
elements, the last one possibly shorter. -/
def toChunks {α : Type} (n : Nat) (l : List α) : List (List α) :=
  chunksGo n l.length l

/-- The `xor_sum` gadget of the source: asserts (models as `none`) that the
data has `32 * 8` booleans, then XOR-folds the 8-bit chunks into an 8-entry
accumulator that starts as `Constant(false)`. -/
def xor_sum (η : Naming) (nm : List String) (cs : CS) (data : List Boolean) :
    Option (List Boolean × CS) :=
  if data.length = INPUT_SIZE * 8 then
    some (xorSumLoop η nm cs 0 (List.replicate 8 (Boolean.constant false)) (toChunks 8 data))
  else none

/-- The bits of a byte, least-significant first, as computed by the source:
`(byte >> i) & 1u8 == 1u8` for `i` in `0..8`. -/
def byteBits (b : Nat) : List Bool :=
  (List.range 8).map fun i => decide ((b >>> i) &&& 1 = 1)

/-- Numeric value of a little-endian bit sequence: `Σ bit_i · 2^i`. -/
def bitsVal : List Bool → Nat
  | [] => 0
  | b :: bs => (if b then 1 else 0) + 2 * bitsVal bs

/-- Modelled from the spec: the field's safe bit-capacity (`Fr::CAPACITY` for
the BLS12-381 scalar field, i.e. 255). -/
def CAPACITY : Nat := 255

/-- Modelled from the spec: `multipack::bytes_to_bits_le` — each byte split
into 8 bits, least-significant first. -/
def multipack.bytes_to_bits_le (bytes : List Nat) : List Bool :=
  bytes.flatMap byteBits

/-- Little-endian packing of one chunk of bits into a field element with a
doubling coefficient, starting at `coeff`. -/
def packChunkF : F → List Bool → F
  | _, [] => 0
  | coeff, b :: bs => (if b then coeff else 0) + packChunkF (coeff + coeff) bs

/-- Modelled from the spec: the native packing path of `§4.4` —
`multipack::compute_multipacking`: chunk the bits into groups of `CAPACITY`
and pack each little-endian into one field element. -/
def multipack.compute_multipacking (bits : List Bool) : List F :=
  (toChunks CAPACITY bits).map (packChunkF 1)

/-- The linear combination `Σ bit_i · coeff · 2^i` over a chunk of Booleans. -/
def packLC : F → List Boolean → LinComb
  | _, [] => []
  | coeff, b :: bs => b.lc coeff ++ packLC (coeff + coeff) bs

/-- The witnessed value of a packed chunk: `Σ bit_i · 2^i`, known only when
every constituent bit's value is known. -/
def packValue : List Boolean → Option F
  | [] => some 0
  | b :: bs =>
    match b.getValue, packValue bs with
    | some x, some v => some (boolToF x + 2 * v)
    | _, _ => none

/-- Modelled from the spec (§4.4): register one packed chunk — allocate one
public-input variable and emit one linear constraint asserting it equals the
weighted bit sum (written as `(Σ 2^i · bit_i) · 1 = input`). -/
def multipack.packOne (cnm : List String) (cs : CS) (chunk : List Boolean) : CS :=
  let idx := cs.inputVals.length
  let cs1 := { cs with inputVals := cs.inputVals ++ [packValue chunk] }
  CS.enforce cnm (packLC 1 chunk, [(Var.one, 1)], [(Var.input idx, 1)]) cs1

def multipack.packLoop (η : Naming) (nm : List String) :
    CS → Nat → List (List Boolean) → CS
  | cs, _, [] => cs
  | cs, i, chunk :: rest =>
    multipack.packLoop η nm (multipack.packOne (nm ++ [η.packCon i]) cs chunk) (i + 1) rest

/-- Modelled from the spec (§4.4): `multipack::pack_into_inputs`. -/
def multipack.pack_into_inputs (η : Naming) (nm : List String) (cs : CS)
    (bits : List Boolean) : CS :=
  multipack.packLoop η nm cs 0 (toChunks CAPACITY bits)

/-- `native_xor_sum` of the source: asserts (models as `none`) a 32-byte
input, then XOR-folds all bytes. -/
def native_xor_sum (data : List Nat) : Option Nat :=
  if data.length = INPUT_SIZE then
    some (data.foldl (fun prev next => prev ^^^ next) 0)
  else none

/-- `MyCircuit` of the source: an optional 32-byte preimage witness. -/
structure MyCircuit where
  preimage : Option (List Nat)

/-- The bit-allocation loop of `MyCircuit::synthesize`: allocate each optional
bit value under namespace `preimage bit i`, wrapping the result as
`Boolean::Is`. -/
def allocBits (η : Naming) : CS → Nat → List (Option Bool) → List Boolean × CS
  | cs, _, [] => ([], cs)
  | cs, i, v :: vs =>
    let (b, cs1) := AllocatedBit.alloc [η.bitNs i, η.boolCon] v cs
    let (rest, cs2) := allocBits η cs1 (i + 1) vs
    (Boolean.is b :: rest, cs2)

/-- The body of `MyCircuit::synthesize` after the preimage bits have been
computed: allocate, XOR-fold, pack. -/
def synthCore (η : Naming) (cs : CS) (bitValues : List (Option Bool)) : Option CS :=
  let (bits, cs1) := allocBits η cs 0 bitValues
  match xor_sum η [η.xorSumNs] cs1 bits with
  | none => none
  | some (hash, cs2) => some (multipack.pack_into_inputs η [η.packNs] cs2 hash)

/-- `MyCircuit::synthesize` of the source: the preimage bits are
`(byte >> i) & 1u8 == 1u8` per byte when the witness is present, and 256
unknown values when it is absent. -/
def MyCircuit.synthesize (η : Naming) (c : MyCircuit) (cs : CS) : Option CS :=
  let bitValues : List (Option Bool) :=
    match c.preimage with
    | some p =>
      p.flatMap fun byte => (List.range 8).map fun i => some (decide ((byte >>> i) &&& 1 = 1))
    | none => List.replicate (INPUT_SIZE * 8) none
  synthCore η cs bitValues

/-- The demo preimage of `main`: the 32 ASCII bytes of
`"da confusion of da highest orda!"`. -/
def demoPreimage : List Nat :=
  [100, 97, 32, 99, 111, 110, 102, 117, 115, 105, 111, 110, 32, 111, 102, 32,
   100, 97, 32, 104, 105, 103, 104, 101, 115, 116, 32, 111, 114, 100, 97, 33]

/-- The demo preimage after `preimage.swap(3, 13)` in `main`. -/
def demoSwapped : List Nat :=
  [100, 97, 32, 111, 111, 110, 102, 117, 115, 105, 111, 110, 32, 99, 102, 32,
   100, 97, 32, 104, 105, 103, 104, 101, 115, 116, 32, 111, 114, 100, 97, 33]

/-! ## Semantics of a constraint system -/

/-- The assigned value of auxiliary variable `i` (0 when unassigned). -/
def CS.auxVal (cs : CS) (i : Nat) : F := (cs.auxVals.getD i none).getD 0

/-- The assigned value of public-input variable `i` (0 when unassigned). -/
def CS.inputVal (cs : CS) (i : Nat) : F := (cs.inputVals.getD i none).getD 0

def evalVar (cs : CS) : Var → F
  | .one => 1
  | .input i => cs.inputVal i
  | .aux i => cs.auxVal i

/-- The value of a linear combination under a constraint system's
assignment. -/
def LinComb.eval (cs : CS) (lc : LinComb) : F :=
  (lc.map fun p => p.2 * evalVar cs p.1).sum

/-- A constraint `A · B = C` holds under the assignment. -/
def conSat (cs : CS) (c : Constraint) : Prop :=
  LinComb.eval cs c.1 * LinComb.eval cs c.2.1 = LinComb.eval cs c.2.2

/-- Every constraint of the ledger holds under the assignment. -/
def CS.satisfied (cs : CS) : Prop := ∀ c ∈ cs.constraints, conSat cs c

def Var.bound (na ni : Nat) : Var → Prop
  | .one => True
  | .aux i => i < na
  | .input i => i < ni

instance (na ni : Nat) (v : Var) : Decidable (Var.bound na ni v) :=
  match v with
  | .one => .isTrue trivial
  | .aux i => inferInstanceAs (Decidable (i < na))
  | .input i => inferInstanceAs (Decidable (i < ni))

/-- All variables of the linear combination are in range. -/
def LinComb.bound (na ni : Nat) (lc : LinComb) : Prop :=
  ∀ p ∈ lc, Var.bound na ni p.1

def conBound (na ni : Nat) (c : Constraint) : Prop :=
  c.1.bound na ni ∧ c.2.1.bound na ni ∧ c.2.2.bound na ni

/-- Well-formedness invariant kept through a synthesis run: each stored
constraint mentions only allocated variables, and is satisfied. -/
def CS.good (cs : CS) : Prop :=
  (∀ c ∈ cs.constraints, conBound cs.auxVals.length cs.inputVals.length c) ∧
  cs.satisfied

/-- The ledger only ever grows: `cs'` is `cs` with entries appended. -/
def CS.Ext (cs cs' : CS) : Prop :=
  (∃ t, cs'.auxVals = cs.auxVals ++ t) ∧
  (∃ t, cs'.inputVals = cs.inputVals ++ t) ∧
  (∃ t, cs'.constraints = cs.constraints ++ t)

/-- The bit is allocated and its ledger entry carries exactly the value `x`. -/
def AllocatedBit.holds (cs : CS) (a : AllocatedBit) (x : Bool) : Prop :=
  a.value = some x ∧ a.var < cs.auxVals.length ∧
  cs.auxVals.getD a.var none = some (boolToF x)

/-- The Boolean denotes the bit `x` under `cs` — its witnessed value is `x`
and its backing variable (if any) is assigned accordingly. -/
def Boolean.holds (cs : CS) : Boolean → Bool → Prop
  | .constant b, x => b = x
  | .is a, x => a.holds cs x
  | .not a, x => a.holds cs (!x)

instance (cs : CS) (a : AllocatedBit) (x : Bool) : Decidable (a.holds cs x) :=
  inferInstanceAs (Decidable (_ ∧ _ ∧ _))

instance (cs : CS) (b : Boolean) (x : Bool) : Decidable (b.holds cs x) :=
  match b with
  | .constant c => inferInstanceAs (Decidable (c = x))
  | .is a => inferInstanceAs (Decidable (a.holds cs x))
  | .not a => inferInstanceAs (Decidable (a.holds cs (!x)))

/-- The value-level counterpart of `xorChunk`: zip the accumulator with the
chunk by XOR, keeping unzipped accumulator entries. -/
def zipXor : List Bool → List Bool → List Bool
  | [], _ => []
  | a :: acc, [] => a :: acc
  | a :: acc, b :: chunk => Bool.xor a b :: zipXor acc chunk

/-- Structural skeleton of the final state: the constraint ledger and the
variable counts, without names and without assignments. -/
def CS.shape (cs : CS) : List Constraint × Nat × Nat :=
  (cs.constraints, cs.auxVals.length, cs.inputVals.length)

def shapeOf : Option CS → Option (List Constraint × Nat × Nat)
  | none => none
  | some cs => some cs.shape

/-- Two Booleans with the same structure (same variant, same backing
variable), regardless of the witnessed values. -/
inductive BoolRel : Boolean → Boolean → Prop
  | constant (b : Bool) : BoolRel (.constant b) (.constant b)
  | is (v v' : AllocatedBit) (h : v.var = v'.var) : BoolRel (.is v) (.is v')
  | not (v v' : AllocatedBit) (h : v.var = v'.var) : BoolRel (.not v) (.not v')

/-- Two constraint systems of identical shape (ledger and counts), regardless
of names and assignments. -/
def ShapeRel (cs cs' : CS) : Prop :=
  cs.constraints = cs'.constraints ∧
  cs.auxVals.length = cs'.auxVals.length ∧
  cs.inputVals.length = cs'.inputVals.length

/-- Shape relation on optional synthesis results. -/
def ShapeRelO : Option CS → Option CS → Prop
  | none, none => True
  | some cs, some cs' => ShapeRel cs cs'
  | _, _ => False

/-- A Boolean is witnessed when it is an `Is` or `Not` variant. -/
def Boolean.isWitnessed : Boolean → Bool
  | .constant _ => false
  | .is _ => true
  | .not _ => true

/-- The structure-only (witness-less) synthesis run of the demo circuit, used
for concrete evaluation. -/
def structureRun : CS :=
  (MyCircuit.synthesize Naming.std ⟨none⟩ CS.empty).getD CS.empty

/-- A booleanity constraint `bit · (1 - bit) = 0` is recognized by its zero
`C` component; in this circuit no other constraint has `C = 0`. -/
def isBoolCon (c : Constraint) : Bool := decide (c.2.2 = [])

/-- The packing constraint is recognized by its `B` component being the bare
constant `1`; in this circuit no other constraint has that `B`. -/
def isPackCon (c : Constraint) : Bool :=
  decide (c.2.1 = [(Var.one, (1 : F))]) && !(isBoolCon c)

/-- Every constraint of this circuit that is neither a booleanity nor the
packing constraint is an XOR constraint. -/
def isXorCon (c : Constraint) : Bool := !(isBoolCon c) && !(isPackCon c)

instance (cs : CS) (c : Constraint) : Decidable (conSat cs c) :=
  inferInstanceAs (Decidable (_ = _))

instance (cs : CS) : Decidable cs.satisfied :=
  inferInstanceAs (Decidable (∀ c ∈ cs.constraints, conSat cs c))

instance (na ni : Nat) (lc : LinComb) : Decidable (lc.bound na ni) :=
  inferInstanceAs (Decidable (∀ p ∈ lc, Var.bound na ni p.1))

instance (na ni : Nat) (c : Constraint) : Decidable (conBound na ni c) :=
  inferInstanceAs (Decidable (_ ∧ _ ∧ _))

instance (cs : CS) : Decidable cs.good :=
  inferInstanceAs (Decidable (_ ∧ _))

/-! ## Basic lemmas about the semantics -/

theorem chunksGo_fuel {α : Type} (n : Nat) :
    ∀ (f f' : Nat) (l : List α), l.length ≤ f → l.length ≤ f' →
      chunksGo n f l = chunksGo n f' l := by
  intro f
  induction f with
  | zero =>
    intro f' l hf hf'
    cases l with
    | nil => cases f' <;> rfl
    | cons a t => simp at hf
  | succ f₁ ih =>
    intro f' l hf hf'
    cases l with
    | nil => cases f' <;> rfl
    | cons a t =>
      cases f' with
      | zero => simp at hf'
      | succ f₂ =>
        show (a :: t.take (n - 1)) :: chunksGo n f₁ (t.drop (n - 1))
          = (a :: t.take (n - 1)) :: chunksGo n f₂ (t.drop (n - 1))
        have h1 : (t.drop (n - 1)).length ≤ f₁ := by
          simp at hf ⊢
          omega
        have h2 : (t.drop (n - 1)).length ≤ f₂ := by
          simp at hf' ⊢
          omega
        rw [ih f₂ _ h1 h2]

theorem toChunks_nil {α : Type} (n : Nat) : toChunks n ([] : List α) = [] := rfl

theorem toChunks_cons {α : Type} (n : Nat) (a : α) (l : List α) :
    toChunks n (a :: l) = (a :: l.take (n - 1)) :: toChunks n (l.drop (n - 1)) := by
  show chunksGo n (l.length + 1) (a :: l)
    = (a :: l.take (n - 1)) :: chunksGo n (l.drop (n - 1)).length (l.drop (n - 1))
  show (a :: l.take (n - 1)) :: chunksGo n l.length (l.drop (n - 1))
    = (a :: l.take (n - 1)) :: chunksGo n (l.drop (n - 1)).length (l.drop (n - 1))
  rw [chunksGo_fuel n l.length (l.drop (n - 1)).length (l.drop (n - 1)) (by simp) (le_refl _)]


theorem ext_refl (cs : CS) : CS.Ext cs cs :=
  ⟨⟨[], by simp⟩, ⟨[], by simp⟩, ⟨[], by simp⟩⟩

theorem ext_trans {cs₁ cs₂ cs₃ : CS} (h : CS.Ext cs₁ cs₂) (h' : CS.Ext cs₂ cs₃) :
    CS.Ext cs₁ cs₃ := by
  obtain ⟨⟨a, ha⟩, ⟨b, hb⟩, ⟨c, hc⟩⟩ := h
  obtain ⟨⟨a', ha'⟩, ⟨b', hb'⟩, ⟨c', hc'⟩⟩ := h'
  exact ⟨⟨a ++ a', by simp [ha', ha]⟩, ⟨b ++ b', by simp [hb', hb]⟩,
         ⟨c ++ c', by simp [hc', hc]⟩⟩

theorem ext_aux_le {cs cs' : CS} (h : CS.Ext cs cs') :
    cs.auxVals.length ≤ cs'.auxVals.length := by
  obtain ⟨⟨a, ha⟩, -, -⟩ := h
  simp [ha]

theorem ext_input_le {cs cs' : CS} (h : CS.Ext cs cs') :
    cs.inputVals.length ≤ cs'.inputVals.length := by
  obtain ⟨-, ⟨b, hb⟩, -⟩ := h
  simp [hb]

theorem allocHolds_mono {cs cs' : CS} (hx : CS.Ext cs cs') {a : AllocatedBit} {x : Bool}
    (h : a.holds cs x) : a.holds cs' x := by
  obtain ⟨⟨t, ht⟩, -, -⟩ := hx
  obtain ⟨hv, hlt, hgd⟩ := h
  refine ⟨hv, ?_, ?_⟩
  · rw [ht, List.length_append]; omega
  · rw [ht, List.getD_append _ _ _ _ hlt]; exact hgd

theorem holds_mono {cs cs' : CS} (hx : CS.Ext cs cs') {b : Boolean} {x : Bool}
    (h : b.holds cs x) : b.holds cs' x := by
  cases b with
  | constant v => exact h
  | is a => exact allocHolds_mono hx h
  | not a => exact allocHolds_mono hx h

theorem eval_nil (cs : CS) : LinComb.eval cs [] = 0 := rfl

theorem eval_cons (cs : CS) (p : Var × F) (lc : LinComb) :
    LinComb.eval cs (p :: lc) = p.2 * evalVar cs p.1 + LinComb.eval cs lc := by
  simp [LinComb.eval]

theorem eval_append (cs : CS) (l₁ l₂ : LinComb) :
    LinComb.eval cs (l₁ ++ l₂) = LinComb.eval cs l₁ + LinComb.eval cs l₂ := by
  simp [LinComb.eval]

theorem lc_eval {cs : CS} {b : Boolean} {x : Bool} (h : b.holds cs x) (c : F) :
    LinComb.eval cs (b.lc c) = c * boolToF x := by
  cases b with
  | constant v =>
    cases h
    cases x <;> simp [Boolean.lc, LinComb.eval, boolToF, evalVar]
  | is a =>
    obtain ⟨hv, hlt, hgd⟩ := h
    rw [List.getD_eq_getElem?_getD] at hgd
    simp [Boolean.lc, LinComb.eval, evalVar, CS.auxVal, List.getD_eq_getElem?_getD, hgd]
  | not a =>
    obtain ⟨hv, hlt, hgd⟩ := h
    rw [List.getD_eq_getElem?_getD] at hgd
    cases x <;>
      simp [Boolean.lc, LinComb.eval, evalVar, CS.auxVal, List.getD_eq_getElem?_getD, hgd,
        boolToF]

theorem lc_eval_smul (cs : CS) (b : Boolean) (c : F) :
    LinComb.eval cs (b.lc c) = c * LinComb.eval cs (b.lc 1) := by
  cases b with
  | constant v => cases v <;> simp [Boolean.lc, LinComb.eval, evalVar]
  | is a => simp [Boolean.lc, LinComb.eval, evalVar]
  | not a => simp [Boolean.lc, LinComb.eval, evalVar]; ring

theorem evalVar_ext {cs cs' : CS} (hx : CS.Ext cs cs') {v : Var}
    (hv : Var.bound cs.auxVals.length cs.inputVals.length v) :
    evalVar cs' v = evalVar cs v := by
  obtain ⟨⟨a, ha⟩, ⟨b, hb⟩, -⟩ := hx
  cases v with
  | one => rfl
  | aux i =>
    show CS.auxVal cs' i = CS.auxVal cs i
    unfold CS.auxVal
    rw [ha, List.getD_append _ _ _ _ hv]
  | input i =>
    show CS.inputVal cs' i = CS.inputVal cs i
    unfold CS.inputVal
    rw [hb, List.getD_append _ _ _ _ hv]

theorem eval_ext {cs cs' : CS} (hx : CS.Ext cs cs') {lc : LinComb}
    (hb : lc.bound cs.auxVals.length cs.inputVals.length) :
    LinComb.eval cs' lc = LinComb.eval cs lc := by
  unfold LinComb.eval
  congr 1
  apply List.map_congr_left
  intro p hp
  rw [evalVar_ext hx (hb p hp)]

theorem var_bound_mono {na ni na' ni' : Nat} (ha : na ≤ na') (hi : ni ≤ ni')
    {v : Var} (h : Var.bound na ni v) : Var.bound na' ni' v := by
  cases v with
  | one => trivial
  | aux i => exact lt_of_lt_of_le h ha
  | input i => exact lt_of_lt_of_le h hi

theorem lc_bound_mono {na ni na' ni' : Nat} (ha : na ≤ na') (hi : ni ≤ ni')
    {lc : LinComb} (h : lc.bound na ni) : lc.bound na' ni' :=
  fun p hp => var_bound_mono ha hi (h p hp)

theorem con_bound_mono {na ni na' ni' : Nat} (ha : na ≤ na') (hi : ni ≤ ni')
    {c : Constraint} (h : conBound na ni c) : conBound na' ni' c :=
  ⟨lc_bound_mono ha hi h.1, lc_bound_mono ha hi h.2.1, lc_bound_mono ha hi h.2.2⟩

theorem conSat_ext {cs cs' : CS} (hx : CS.Ext cs cs') {c : Constraint}
    (hb : conBound cs.auxVals.length cs.inputVals.length c) (hs : conSat cs c) :
    conSat cs' c := by
  unfold conSat
  rw [eval_ext hx hb.1, eval_ext hx hb.2.1, eval_ext hx hb.2.2]
  exact hs

/-- Transfer `good` along an extension: the old constraints stay bounded and
satisfied, and the appended constraints are checked in the new state. -/
theorem good_of_ext {cs cs' : CS} (hx : CS.Ext cs cs') (hg : cs.good)
    {t : List Constraint} (hc : cs'.constraints = cs.constraints ++ t)
    (hbt : ∀ c ∈ t, conBound cs'.auxVals.length cs'.inputVals.length c)
    (hst : ∀ c ∈ t, conSat cs' c) : cs'.good := by
  constructor
  · intro c hcmem
    rw [hc, List.mem_append] at hcmem
    rcases hcmem with hold | hnew
    · exact con_bound_mono (ext_aux_le hx) (ext_input_le hx) (hg.1 c hold)
    · exact hbt c hnew
  · intro c hcmem
    rw [hc, List.mem_append] at hcmem
    rcases hcmem with hold | hnew
    · exact conSat_ext hx (hg.1 c hold) (hg.2 c hold)
    · exact hst c hnew

/-! ## Specifications of the elementary operations -/

theorem getD_concat_length {α : Type} (l : List α) (w d : α) :
    (l ++ [w]).getD l.length d = w := by
  rw [List.getD_append_right _ _ _ _ (le_refl _)]
  simp

theorem holds_getValue {cs : CS} {b : Boolean} {x : Bool} (h : b.holds cs x) :
    b.getValue = some x := by
  cases b with
  | constant v => cases h; rfl
  | is a => exact h.1
  | not a => simp [Boolean.getValue, h.1]

theorem holds_lc_bound {cs : CS} {b : Boolean} {x : Bool} (h : b.holds cs x) (c : F) :
    (b.lc c).bound cs.auxVals.length cs.inputVals.length := by
  cases b with
  | constant v =>
    cases v <;> intro p hp <;> simp [Boolean.lc] at hp <;> simp [hp, Var.bound]
  | is a =>
    intro p hp
    simp [Boolean.lc] at hp
    simp [hp, Var.bound]
    exact h.2.1
  | not a =>
    intro p hp
    simp [Boolean.lc] at hp
    rcases hp with hp | hp <;> simp [hp, Var.bound]
    exact h.2.1

theorem xor_field_identity (x y : Bool) :
    2 * boolToF x * boolToF y = boolToF x + boolToF y - boolToF (Bool.xor x y) := by
  cases x <;> cases y <;> norm_num [boolToF]

theorem bool_sq_identity (w : Option Bool) :
    ((w.map boolToF).getD 0) * (1 - (w.map boolToF).getD 0) = 0 := by
  cases w with
  | none => simp
  | some x => cases x <;> norm_num [boolToF]

theorem alloc_fields (cnm : List String) (v : Option Bool) (cs : CS) :
    (AllocatedBit.alloc cnm v cs).2.auxVals = cs.auxVals ++ [v.map boolToF] ∧
    (AllocatedBit.alloc cnm v cs).2.inputVals = cs.inputVals ∧
    (AllocatedBit.alloc cnm v cs).2.constraints = cs.constraints ++
      [([(Var.aux cs.auxVals.length, 1)],
        [(Var.one, 1), (Var.aux cs.auxVals.length, -1)], [])] ∧
    (AllocatedBit.alloc cnm v cs).1 = ⟨v, cs.auxVals.length⟩ := by
  refine ⟨rfl, rfl, rfl, rfl⟩

theorem alloc_ext (cnm : List String) (v : Option Bool) (cs : CS) :
    CS.Ext cs (AllocatedBit.alloc cnm v cs).2 := by
  obtain ⟨h1, h2, h3, -⟩ := alloc_fields cnm v cs
  exact ⟨⟨_, h1⟩, ⟨[], by simp [h2]⟩, ⟨_, h3⟩⟩

theorem alloc_auxVal (cnm : List String) (v : Option Bool) (cs : CS) :
    (AllocatedBit.alloc cnm v cs).2.auxVal cs.auxVals.length = (v.map boolToF).getD 0 := by
  obtain ⟨h1, -, -, -⟩ := alloc_fields cnm v cs
  unfold CS.auxVal
  rw [h1, getD_concat_length]

theorem alloc_good (cnm : List String) (v : Option Bool) (cs : CS) (hg : cs.good) :
    (AllocatedBit.alloc cnm v cs).2.good := by
  obtain ⟨h1, h2, h3, -⟩ := alloc_fields cnm v cs
  refine good_of_ext (alloc_ext cnm v cs) hg h3 ?_ ?_
  · intro c hc
    simp at hc
    subst hc
    refine ⟨?_, ?_, ?_⟩ <;> intro p hp <;> simp at hp
    · simp [hp, Var.bound, h1]
    · rcases hp with hp | hp <;> simp [hp, Var.bound, h1]
  · intro c hc
    simp at hc
    subst hc
    unfold conSat
    have he : ∀ i : Nat, LinComb.eval (AllocatedBit.alloc cnm v cs).2
        [(Var.aux i, (1 : F))] = (AllocatedBit.alloc cnm v cs).2.auxVal i := by
      intro i; simp [LinComb.eval, evalVar]
    simp only [LinComb.eval, List.map_cons, List.map_nil, List.sum_cons, List.sum_nil,
      evalVar]
    rw [alloc_auxVal cnm v cs]
    have := bool_sq_identity v
    ring_nf
    ring_nf at this
    linear_combination this

theorem alloc_holds (cnm : List String) (x : Bool) (cs : CS) :
    (Boolean.is (AllocatedBit.alloc cnm (some x) cs).1).holds
      (AllocatedBit.alloc cnm (some x) cs).2 x := by
  obtain ⟨h1, -, -, h4⟩ := alloc_fields cnm (some x) cs
  rw [h4]
  refine ⟨rfl, ?_, ?_⟩
  · rw [h1]; simp
  · rw [h1]
    show (cs.auxVals ++ [some (boolToF x)]).getD cs.auxVals.length none = some (boolToF x)
    exact getD_concat_length _ _ _

theorem xorW_fields (cnm : List String) {cs : CS} {a b : Boolean} {x y : Bool}
    (ha : a.holds cs x) (hb : b.holds cs y) :
    (xorWitnessed cnm cs a b).2.auxVals = cs.auxVals ++ [some (boolToF (Bool.xor x y))] ∧
    (xorWitnessed cnm cs a b).2.inputVals = cs.inputVals ∧
    (xorWitnessed cnm cs a b).2.constraints = cs.constraints ++
      [(a.lc 2, b.lc 1, a.lc 1 ++ b.lc 1 ++ [(Var.aux cs.auxVals.length, -1)])] ∧
    (xorWitnessed cnm cs a b).1 = Boolean.is ⟨some (Bool.xor x y), cs.auxVals.length⟩ := by
  simp [xorWitnessed, CS.enforce, holds_getValue ha, holds_getValue hb]

theorem xorW_spec (cnm : List String) {cs : CS} {a b : Boolean} {x y : Bool}
    (ha : a.holds cs x) (hb : b.holds cs y) (hg : cs.good) :
    CS.Ext cs (xorWitnessed cnm cs a b).2 ∧
    (xorWitnessed cnm cs a b).2.good ∧
    (xorWitnessed cnm cs a b).1.holds (xorWitnessed cnm cs a b).2 (Bool.xor x y) := by
  obtain ⟨h1, h2, h3, h4⟩ := xorW_fields cnm ha hb
  have hext : CS.Ext cs (xorWitnessed cnm cs a b).2 :=
    ⟨⟨_, h1⟩, ⟨[], by simp [h2]⟩, ⟨_, h3⟩⟩
  have hax : (xorWitnessed cnm cs a b).2.auxVal cs.auxVals.length
      = boolToF (Bool.xor x y) := by
    unfold CS.auxVal
    rw [h1, getD_concat_length]
    rfl
  refine ⟨hext, ?_, ?_⟩
  · refine good_of_ext hext hg h3 ?_ ?_
    · intro c hc
      simp only [List.mem_singleton] at hc
      subst hc
      have hlen := ext_aux_le hext
      have hilen := ext_input_le hext
      refine ⟨lc_bound_mono hlen hilen (holds_lc_bound ha 2),
              lc_bound_mono hlen hilen (holds_lc_bound hb 1), ?_⟩
      intro p hp
      rw [List.mem_append] at hp
      rcases hp with hp | hp
      · rw [List.mem_append] at hp
        rcases hp with hp | hp
        · exact var_bound_mono hlen hilen (holds_lc_bound ha 1 p hp)
        · exact var_bound_mono hlen hilen (holds_lc_bound hb 1 p hp)
      · simp only [List.mem_singleton] at hp
        subst hp
        show cs.auxVals.length < (xorWitnessed cnm cs a b).2.auxVals.length
        rw [h1]
        simp
    · intro c hc
      simp only [List.mem_singleton] at hc
      subst hc
      unfold conSat
      have ha' := holds_mono hext ha
      have hb' := holds_mono hext hb
      show LinComb.eval _ (a.lc 2) * LinComb.eval _ (b.lc 1) = _
      rw [lc_eval ha' 2, lc_eval hb' 1, eval_append, eval_append,
        lc_eval ha' 1, lc_eval hb' 1]
      have hout : LinComb.eval (xorWitnessed cnm cs a b).2
          [(Var.aux cs.auxVals.length, (-1 : F))] = -(boolToF (Bool.xor x y)) := by
        simp [LinComb.eval, evalVar, hax]
      rw [hout]
      have hid := xor_field_identity x y
      ring_nf
      ring_nf at hid
      linear_combination hid
  · rw [h4]
    refine ⟨rfl, ?_, ?_⟩
    · rw [h1]; simp
    · show (xorWitnessed cnm cs a b).2.auxVals.getD cs.auxVals.length none = _
      rw [h1]
      exact getD_concat_length _ _ _

theorem xor_spec (cnm : List String) {cs : CS} {a b : Boolean} {x y : Bool}
    (ha : a.holds cs x) (hb : b.holds cs y) (hg : cs.good) :
    CS.Ext cs (Boolean.xor cnm cs a b).2 ∧
    (Boolean.xor cnm cs a b).2.good ∧
    (Boolean.xor cnm cs a b).1.holds (Boolean.xor cnm cs a b).2 (Bool.xor x y) := by
  cases a with
  | constant u =>
    have hux : u = x := ha
    subst hux
    cases b with
    | constant v =>
      have hvy : v = y := hb
      subst hvy
      cases u <;> cases v <;> exact ⟨ext_refl cs, hg, rfl⟩
    | is b' =>
      cases u
      · exact ⟨ext_refl cs, hg, by simpa using hb⟩
      · refine ⟨ext_refl cs, hg, ?_⟩
        show b'.holds cs (!(Bool.xor true y))
        simpa using hb
    | not b' =>
      cases u
      · refine ⟨ext_refl cs, hg, ?_⟩
        show b'.holds cs (!(Bool.xor false y))
        simpa using hb
      · refine ⟨ext_refl cs, hg, ?_⟩
        show b'.holds cs (Bool.xor true y)
        simpa using hb
  | is a' =>
    cases b with
    | constant v =>
      have hvy : v = y := hb
      subst hvy
      cases v
      · refine ⟨ext_refl cs, hg, ?_⟩
        show a'.holds cs (Bool.xor x false)
        simpa using ha
      · refine ⟨ext_refl cs, hg, ?_⟩
        show a'.holds cs (!(Bool.xor x true))
        simpa using ha
    | is b' => exact xorW_spec cnm ha hb hg
    | not b' => exact xorW_spec cnm ha hb hg
  | not a' =>
    cases b with
    | constant v =>
      have hvy : v = y := hb
      subst hvy
      cases v
      · refine ⟨ext_refl cs, hg, ?_⟩
        show a'.holds cs (!(Bool.xor x false))
        simpa using ha
      · refine ⟨ext_refl cs, hg, ?_⟩
        show a'.holds cs (Bool.xor x true)
        simpa using ha
    | is b' => exact xorW_spec cnm ha hb hg
    | not b' => exact xorW_spec cnm ha hb hg

/-! ## Loop-level specifications -/

theorem forall₂_holds_mono {cs cs' : CS} (hx : CS.Ext cs cs') {bs : List Boolean}
    {xs : List Bool} (h : List.Forall₂ (Boolean.holds cs) bs xs) :
    List.Forall₂ (Boolean.holds cs') bs xs := by
  induction h with
  | nil => exact List.Forall₂.nil
  | cons h₁ _ ih => exact List.Forall₂.cons (holds_mono hx h₁) ih

theorem forall₂₂_holds_mono {cs cs' : CS} (hx : CS.Ext cs cs') {bss : List (List Boolean)}
    {xss : List (List Bool)}
    (h : List.Forall₂ (List.Forall₂ (Boolean.holds cs)) bss xss) :
    List.Forall₂ (List.Forall₂ (Boolean.holds cs')) bss xss := by
  induction h with
  | nil => exact List.Forall₂.nil
  | cons h₁ _ ih => exact List.Forall₂.cons (forall₂_holds_mono hx h₁) ih

theorem xorChunk_spec (cnm : List String) :
    ∀ (acc chunk : List Boolean) (cs : CS) (xs ys : List Bool),
      List.Forall₂ (Boolean.holds cs) acc xs →
      List.Forall₂ (Boolean.holds cs) chunk ys →
      cs.good →
      CS.Ext cs (xorChunk cnm cs acc chunk).2 ∧
      (xorChunk cnm cs acc chunk).2.good ∧
      List.Forall₂ (Boolean.holds (xorChunk cnm cs acc chunk).2)
        (xorChunk cnm cs acc chunk).1 (zipXor xs ys) := by
  intro acc
  induction acc with
  | nil =>
    intro chunk cs xs ys hacc hch hg
    cases hacc
    exact ⟨ext_refl cs, hg, List.Forall₂.nil⟩
  | cons a as ih =>
    intro chunk cs xs ys hacc hch hg
    cases hacc with
    | cons hax hasxs =>
      cases chunk with
      | nil =>
        cases hch
        exact ⟨ext_refl cs, hg, List.Forall₂.cons hax hasxs⟩
      | cons b bs =>
        cases hch with
        | cons hby hbsys =>
          obtain ⟨hx1, hg1, hh1⟩ := xor_spec cnm hax hby hg
          rcases hxe : Boolean.xor cnm cs a b with ⟨o, cs1⟩
          rw [hxe] at hx1 hg1 hh1
          obtain ⟨hx2, hg2, hh2⟩ :=
            ih bs cs1 _ _ (forall₂_holds_mono hx1 hasxs) (forall₂_holds_mono hx1 hbsys) hg1
          rcases hce : xorChunk cnm cs1 as bs with ⟨rest, cs2⟩
          rw [hce] at hx2 hg2 hh2
          simp only [xorChunk, hxe, hce]
          exact ⟨ext_trans hx1 hx2, hg2,
            List.Forall₂.cons (holds_mono hx2 hh1) hh2⟩

theorem xorSumLoop_spec (η : Naming) (nm : List String) :
    ∀ (chunks : List (List Boolean)) (cs : CS) (i : Nat) (acc : List Boolean)
      (xs : List Bool) (yss : List (List Bool)),
      List.Forall₂ (Boolean.holds cs) acc xs →
      List.Forall₂ (List.Forall₂ (Boolean.holds cs)) chunks yss →
      cs.good →
      CS.Ext cs (xorSumLoop η nm cs i acc chunks).2 ∧
      (xorSumLoop η nm cs i acc chunks).2.good ∧
      List.Forall₂ (Boolean.holds (xorSumLoop η nm cs i acc chunks).2)
        (xorSumLoop η nm cs i acc chunks).1 (List.foldl zipXor xs yss) := by
  intro chunks
  induction chunks with
  | nil =>
    intro cs i acc xs yss hacc hchs hg
    cases hchs
    exact ⟨ext_refl cs, hg, hacc⟩
  | cons ch chs ih =>
    intro cs i acc xs yss hacc hchs hg
    cases hchs with
    | cons hys hyss =>
      obtain ⟨hx1, hg1, hh1⟩ :=
        xorChunk_spec (nm ++ [η.xorNs i, η.xorCon]) acc ch cs _ _ hacc hys hg
      rcases hxe : xorChunk (nm ++ [η.xorNs i, η.xorCon]) cs acc ch with ⟨acc1, cs1⟩
      rw [hxe] at hx1 hg1 hh1
      obtain ⟨hx2, hg2, hh2⟩ :=
        ih cs1 (i + 1) acc1 _ _ hh1 (forall₂₂_holds_mono hx1 hyss) hg1
      simp only [xorSumLoop, hxe]
      exact ⟨ext_trans hx1 hx2, hg2, hh2⟩

theorem forall₂_toChunks {α β : Type} {R : α → β → Prop} (n : Nat) :
    ∀ (k : Nat) (l : List α) (l' : List β), l.length = k → List.Forall₂ R l l' →
      List.Forall₂ (List.Forall₂ R) (toChunks n l) (toChunks n l') := by
  intro k
  induction k using Nat.strong_induction_on with
  | _ k ih =>
    intro l l' hk h
    cases h with
    | nil =>
      rw [toChunks_nil, toChunks_nil]
      exact List.Forall₂.nil
    | @cons a b as bs hab htail =>
      rw [toChunks_cons, toChunks_cons]
      refine List.Forall₂.cons (List.Forall₂.cons hab (List.forall₂_take _ htail)) ?_
      refine ih (as.drop (n - 1)).length ?_ _ _ rfl (List.forall₂_drop _ htail)
      subst hk
      simp
      omega

theorem allocBits_spec (η : Naming) :
    ∀ (vs : List Bool) (cs : CS) (i : Nat),
      cs.good →
      CS.Ext cs (allocBits η cs i (vs.map some)).2 ∧
      (allocBits η cs i (vs.map some)).2.good ∧
      List.Forall₂ (Boolean.holds (allocBits η cs i (vs.map some)).2)
        (allocBits η cs i (vs.map some)).1 vs := by
  intro vs
  induction vs with
  | nil =>
    intro cs i hg
    exact ⟨ext_refl cs, hg, List.Forall₂.nil⟩
  | cons v vs ih =>
    intro cs i hg
    have hx1 := alloc_ext [η.bitNs i, η.boolCon] (some v) cs
    have hg1 := alloc_good [η.bitNs i, η.boolCon] (some v) cs hg
    have hh1 := alloc_holds [η.bitNs i, η.boolCon] v cs
    rcases hae : AllocatedBit.alloc [η.bitNs i, η.boolCon] (some v) cs with ⟨bit, cs1⟩
    rw [hae] at hx1 hg1 hh1
    obtain ⟨hx2, hg2, hh2⟩ := ih cs1 (i + 1) hg1
    rcases hbe : allocBits η cs1 (i + 1) (vs.map some) with ⟨rest, cs2⟩
    rw [hbe] at hx2 hg2 hh2
    simp only [List.map_cons, allocBits, hae, hbe]
    exact ⟨ext_trans hx1 hx2, hg2, List.Forall₂.cons (holds_mono hx2 hh1) hh2⟩

/-! ## Packer specifications -/

theorem packLC_eval {cs : CS} {chunk : List Boolean} {bs : List Bool}
    (h : List.Forall₂ (Boolean.holds cs) chunk bs) :
    ∀ c : F, LinComb.eval cs (packLC c chunk) = c * ((bitsVal bs : Nat) : F) := by
  induction h with
  | nil => intro c; simp [packLC, LinComb.eval, bitsVal]
  | @cons b x chunk' bs' hb htail ih =>
    intro c
    rw [packLC, eval_append, lc_eval hb c, ih (c + c), bitsVal]
    cases x
    · simp [boolToF]
      ring
    · simp [boolToF]
      ring

theorem packValue_eq {cs : CS} {chunk : List Boolean} {bs : List Bool}
    (h : List.Forall₂ (Boolean.holds cs) chunk bs) :
    packValue chunk = some ((bitsVal bs : Nat) : F) := by
  induction h with
  | nil => simp [packValue, bitsVal]
  | @cons b x chunk' bs' hb htail ih =>
    simp only [packValue, holds_getValue hb, ih, bitsVal]
    cases x
    · simp [boolToF]
    · simp [boolToF]

theorem packLC_bound {cs : CS} {chunk : List Boolean} {bs : List Bool}
    (h : List.Forall₂ (Boolean.holds cs) chunk bs) :
    ∀ c : F, (packLC c chunk).bound cs.auxVals.length cs.inputVals.length := by
  induction h with
  | nil => intro c p hp; simp [packLC] at hp
  | @cons b x chunk' bs' hb htail ih =>
    intro c p hp
    rw [packLC, List.mem_append] at hp
    rcases hp with hp | hp
    · exact holds_lc_bound hb c p hp
    · exact ih (c + c) p hp

theorem packOne_fields (cnm : List String) (cs : CS) (chunk : List Boolean) :
    (multipack.packOne cnm cs chunk).auxVals = cs.auxVals ∧
    (multipack.packOne cnm cs chunk).inputVals = cs.inputVals ++ [packValue chunk] ∧
    (multipack.packOne cnm cs chunk).constraints = cs.constraints ++
      [(packLC 1 chunk, [(Var.one, 1)], [(Var.input cs.inputVals.length, 1)])] :=
  ⟨rfl, rfl, rfl⟩

theorem packOne_spec (cnm : List String) {cs : CS} {chunk : List Boolean} {bs : List Bool}
    (h : List.Forall₂ (Boolean.holds cs) chunk bs) (hg : cs.good) :
    CS.Ext cs (multipack.packOne cnm cs chunk) ∧
    (multipack.packOne cnm cs chunk).good ∧
    (multipack.packOne cnm cs chunk).inputVals
      = cs.inputVals ++ [some ((bitsVal bs : Nat) : F)] := by
  obtain ⟨h1, h2, h3⟩ := packOne_fields cnm cs chunk
  have hext : CS.Ext cs (multipack.packOne cnm cs chunk) :=
    ⟨⟨[], by simp [h1]⟩, ⟨_, h2⟩, ⟨_, h3⟩⟩
  have hival : (multipack.packOne cnm cs chunk).inputVal cs.inputVals.length
      = ((bitsVal bs : Nat) : F) := by
    unfold CS.inputVal
    rw [h2, packValue_eq h, getD_concat_length]
    rfl
  refine ⟨hext, ?_, by rw [h2, packValue_eq h]⟩
  refine good_of_ext hext hg h3 ?_ ?_
  · intro c hc
    simp only [List.mem_singleton] at hc
    subst hc
    refine ⟨lc_bound_mono (ext_aux_le hext) (ext_input_le hext) (packLC_bound h 1),
      ?_, ?_⟩
    · intro p hp
      simp only [List.mem_singleton] at hp
      subst hp
      trivial
    · intro p hp
      simp only [List.mem_singleton] at hp
      subst hp
      show cs.inputVals.length < (multipack.packOne cnm cs chunk).inputVals.length
      rw [h2]
      simp
  · intro c hc
    simp only [List.mem_singleton] at hc
    subst hc
    unfold conSat
    have hA : LinComb.eval (multipack.packOne cnm cs chunk) (packLC 1 chunk)
        = ((bitsVal bs : Nat) : F) := by
      rw [packLC_eval (forall₂_holds_mono hext h) 1]
      ring
    have hB : LinComb.eval (multipack.packOne cnm cs chunk) [(Var.one, (1 : F))] = 1 := by
      simp [LinComb.eval, evalVar]
    have hC : LinComb.eval (multipack.packOne cnm cs chunk)
        [(Var.input cs.inputVals.length, (1 : F))] = ((bitsVal bs : Nat) : F) := by
      simp [LinComb.eval, evalVar, hival]
    show LinComb.eval _ (packLC 1 chunk) * _ = _
    rw [hA, hB, hC]
    ring

theorem toChunks_single {α : Type} (n : Nat) (l : List α) (h0 : l ≠ []) (hn : l.length ≤ n) :
    toChunks n l = [l] := by
  cases l with
  | nil => exact absurd rfl h0
  | cons a t =>
    rw [toChunks_cons]
    have ht : t.length ≤ n - 1 := by
      simp at hn
      omega
    rw [List.take_of_length_le ht, List.drop_eq_nil_of_le ht, toChunks_nil]

theorem pack_spec (η : Naming) (nm : List String) {cs : CS} {bits : List Boolean}
    {bs : List Bool} (h : List.Forall₂ (Boolean.holds cs) bits bs) (hg : cs.good)
    (h0 : bits ≠ []) (hcap : bits.length ≤ CAPACITY) :
    CS.Ext cs (multipack.pack_into_inputs η nm cs bits) ∧
    (multipack.pack_into_inputs η nm cs bits).good ∧
    (multipack.pack_into_inputs η nm cs bits).inputVals
      = cs.inputVals ++ [some ((bitsVal bs : Nat) : F)] := by
  unfold multipack.pack_into_inputs
  rw [toChunks_single CAPACITY bits h0 hcap]
  simp only [multipack.packLoop]
  exact packOne_spec _ h hg

/-! ## Pure bit arithmetic -/

theorem byteBits_eq_testBit (b : Nat) :
    byteBits b = (List.range 8).map fun i => b.testBit i := by
  unfold byteBits
  apply List.map_congr_left
  intro i _
  simp [Nat.testBit_to_div_mod, Nat.shiftRight_eq_div_pow, Nat.and_one_is_mod]

theorem byteBits_length (b : Nat) : (byteBits b).length = 8 := by
  simp [byteBits]

theorem byteBits_zero : byteBits 0 = List.replicate 8 false := by decide

theorem zipXor_map_range (k : Nat) :
    ∀ f g : Nat → Bool,
      zipXor ((List.range k).map f) ((List.range k).map g)
        = (List.range k).map fun i => Bool.xor (f i) (g i) := by
  induction k with
  | zero => intro f g; rfl
  | succ n ih =>
    intro f g
    rw [List.range_succ_eq_map]
    simp only [List.map_cons, List.map_map, zipXor]
    rw [ih]
    simp [Function.comp]

theorem zipXor_byteBits (x y : Nat) :
    zipXor (byteBits x) (byteBits y) = byteBits (x ^^^ y) := by
  rw [byteBits_eq_testBit, byteBits_eq_testBit, byteBits_eq_testBit, zipXor_map_range]
  apply List.map_congr_left
  intro i _
  rw [Nat.testBit_xor]

theorem foldl_zipXor_byteBits (p : List Nat) :
    ∀ a : Nat, List.foldl zipXor (byteBits a) (p.map byteBits)
      = byteBits (p.foldl (fun prev next => prev ^^^ next) a) := by
  induction p with
  | nil => intro a; rfl
  | cons q qs ih =>
    intro a
    simp only [List.map_cons, List.foldl_cons]
    rw [zipXor_byteBits, ih]

theorem toChunks_append_block {α : Type} {n : Nat} (l1 l2 : List α)
    (h : l1.length = n) (hne : l1 ≠ []) : toChunks n (l1 ++ l2) = l1 :: toChunks n l2 := by
  cases l1 with
  | nil => exact absurd rfl hne
  | cons a t =>
    rw [List.cons_append, toChunks_cons]
    have ht : t.length = n - 1 := by
      simp at h
      omega
    rw [List.take_left' ht, List.drop_left' ht]

theorem byteBits_ne_nil (b : Nat) : byteBits b ≠ [] := by
  intro hc
  have := byteBits_length b
  rw [hc] at this
  simp at this

theorem toChunks_flatMap_byteBits (p : List Nat) :
    toChunks 8 (p.flatMap byteBits) = p.map byteBits := by
  induction p with
  | nil => rw [List.flatMap_nil, toChunks_nil, List.map_nil]
  | cons q qs ih =>
    rw [List.flatMap_cons, toChunks_append_block _ _ (byteBits_length q) (byteBits_ne_nil q),
      ih, List.map_cons]

theorem bitsVal_testBit_range : ∀ k d : Nat,
    bitsVal ((List.range k).map fun i => d.testBit i) = d % 2 ^ k := by
  intro k
  induction k with
  | zero => intro d; simp [bitsVal, Nat.mod_one]
  | succ n ih =>
    intro d
    rw [List.range_succ_eq_map]
    simp only [List.map_cons, List.map_map]
    rw [bitsVal]
    have h1 : (List.range n).map ((fun i => d.testBit i) ∘ Nat.succ)
        = (List.range n).map fun i => (d / 2).testBit i := by
      apply List.map_congr_left
      intro i _
      simp [Function.comp, Nat.testBit_succ]
    rw [h1, ih (d / 2)]
    have h2 : (if d.testBit 0 then 1 else 0) = d % 2 := by
      rw [Nat.testBit_zero]
      rcases Nat.mod_two_eq_zero_or_one d with h | h <;> simp [h]
    rw [h2, pow_succ, Nat.mul_comm (2 ^ n) 2, Nat.mod_mul]

theorem bitsVal_byteBits {d : Nat} (hd : d < 256) : bitsVal (byteBits d) = d := by
  rw [byteBits_eq_testBit, bitsVal_testBit_range]
  simpa using Nat.mod_eq_of_lt hd

theorem foldl_xor_lt (p : List Nat) :
    ∀ a, a < 256 → (∀ b ∈ p, b < 256) →
      p.foldl (fun prev next => prev ^^^ next) a < 256 := by
  induction p with
  | nil =>
    intro a ha _
    exact ha
  | cons q qs ih =>
    intro a ha hb
    simp only [List.foldl_cons]
    apply ih
    · have hq : q < 256 := hb q (List.mem_cons_self q qs)
      have : a ^^^ q < 2 ^ 8 := Nat.xor_lt_two_pow (by simpa) (by simpa)
      simpa using this
    · intro b hbq
      exact hb b (List.mem_cons_of_mem _ hbq)

theorem forall₂_replicate_const (cs : CS) (n : Nat) :
    List.Forall₂ (Boolean.holds cs) (List.replicate n (Boolean.constant false))
      (List.replicate n false) := by
  induction n with
  | zero => exact List.Forall₂.nil
  | succ k ih => exact List.Forall₂.cons rfl ih

theorem flatMap_byteBits_length (p : List Nat) :
    (p.flatMap byteBits).length = 8 * p.length := by
  induction p with
  | nil => rfl
  | cons q qs ih =>
    simp [List.flatMap_cons, byteBits_length, ih]
    ring

/-! ## Public inputs are untouched before the packer runs -/

theorem xor_inputVals (cnm : List String) (cs : CS) (a b : Boolean) :
    (Boolean.xor cnm cs a b).2.inputVals = cs.inputVals := by
  cases a with
  | constant u =>
    cases b with
    | constant v => cases u <;> cases v <;> rfl
    | is b' => cases u <;> rfl
    | not b' => cases u <;> rfl
  | is a' =>
    cases b with
    | constant v => cases v <;> rfl
    | is b' => rfl
    | not b' => rfl
  | not a' =>
    cases b with
    | constant v => cases v <;> rfl
    | is b' => rfl
    | not b' => rfl

theorem xorChunk_inputVals (cnm : List String) :
    ∀ (acc chunk : List Boolean) (cs : CS),
      (xorChunk cnm cs acc chunk).2.inputVals = cs.inputVals := by
  intro acc
  induction acc with
  | nil => intro chunk cs; rfl
  | cons a as ih =>
    intro chunk cs
    cases chunk with
    | nil => rfl
    | cons b bs =>
      have h1 := xor_inputVals cnm cs a b
      rcases hxe : Boolean.xor cnm cs a b with ⟨o, cs1⟩
      rw [hxe] at h1
      have h2 := ih bs cs1
      rcases hce : xorChunk cnm cs1 as bs with ⟨rest, cs2⟩
      rw [hce] at h2
      simp only [xorChunk, hxe, hce]
      exact h2.trans h1

theorem xorSumLoop_inputVals (η : Naming) (nm : List String) :
    ∀ (chunks : List (List Boolean)) (cs : CS) (i : Nat) (acc : List Boolean),
      (xorSumLoop η nm cs i acc chunks).2.inputVals = cs.inputVals := by
  intro chunks
  induction chunks with
  | nil => intro cs i acc; rfl
  | cons ch chs ih =>
    intro cs i acc
    have h1 := xorChunk_inputVals (nm ++ [η.xorNs i, η.xorCon]) acc ch cs
    rcases hxe : xorChunk (nm ++ [η.xorNs i, η.xorCon]) cs acc ch with ⟨acc1, cs1⟩
    rw [hxe] at h1
    simp only [xorSumLoop, hxe]
    exact (ih cs1 (i + 1) acc1).trans h1

theorem allocBits_inputVals (η : Naming) :
    ∀ (vs : List (Option Bool)) (cs : CS) (i : Nat),
      (allocBits η cs i vs).2.inputVals = cs.inputVals := by
  intro vs
  induction vs with
  | nil => intro cs i; rfl
  | cons v vs ih =>
    intro cs i
    rcases hae : AllocatedBit.alloc [η.bitNs i, η.boolCon] v cs with ⟨bit, cs1⟩
    have h1 : cs1.inputVals = cs.inputVals := by
      have := (alloc_fields [η.bitNs i, η.boolCon] v cs).2.1
      rw [hae] at this
      exact this
    rcases hbe : allocBits η cs1 (i + 1) vs with ⟨rest, cs2⟩
    have h2 := ih cs1 (i + 1)
    rw [hbe] at h2
    simp only [allocBits, hae, hbe]
    exact h2.trans h1

/-! ## Master theorem for a witnessed synthesis -/

theorem empty_good : CS.empty.good := by
  constructor
  · intro c hc
    cases hc
  · intro c hc
    cases hc

theorem bitValues_eq (p : List Nat) :
    (p.flatMap fun byte => (List.range 8).map fun i => some (decide ((byte >>> i) &&& 1 = 1)))
      = (p.flatMap byteBits).map some := by
  rw [List.map_flatMap]
  simp only [byteBits, List.map_map]
  rfl

/-- Core correctness of a witnessed synthesis from the empty constraint
system: it succeeds, every emitted constraint is satisfied by the produced
assignment, and the single public input carries the packed XOR-fold of the
preimage bytes. -/
theorem synthCore_value (η : Naming) (p : List Nat) (hlen : p.length = INPUT_SIZE) :
    ∃ cs', synthCore η CS.empty ((p.flatMap byteBits).map some) = some cs' ∧
      cs'.good ∧
      cs'.inputVals
        = [some ((bitsVal (byteBits (p.foldl (fun prev next => prev ^^^ next) 0)) : Nat) : F)] := by
  obtain ⟨hx1, hg1, hh1⟩ := allocBits_spec η (p.flatMap byteBits) CS.empty 0 empty_good
  have hiv1 := allocBits_inputVals η ((p.flatMap byteBits).map some) CS.empty 0
  rcases hae : allocBits η CS.empty 0 ((p.flatMap byteBits).map some) with ⟨bits, cs1⟩
  rw [hae] at hx1 hg1 hh1 hiv1
  dsimp only at hx1 hg1 hh1 hiv1
  have hblen : bits.length = INPUT_SIZE * 8 := by
    rw [List.Forall₂.length_eq hh1, flatMap_byteBits_length, hlen]
    ring
  have hchunks : List.Forall₂ (List.Forall₂ (Boolean.holds cs1))
      (toChunks 8 bits) (p.map byteBits) := by
    have := forall₂_toChunks (R := Boolean.holds cs1) 8 bits.length bits
      (p.flatMap byteBits) rfl hh1
    rwa [toChunks_flatMap_byteBits] at this
  have hacc := forall₂_replicate_const cs1 8
  rw [← byteBits_zero] at hacc
  obtain ⟨hx2, hg2, hh2⟩ := xorSumLoop_spec η [η.xorSumNs] (toChunks 8 bits) cs1 0
    (List.replicate 8 (Boolean.constant false)) (byteBits 0) (p.map byteBits)
    hacc hchunks hg1
  have hiv2 := xorSumLoop_inputVals η [η.xorSumNs] (toChunks 8 bits) cs1 0
    (List.replicate 8 (Boolean.constant false))
  rcases hle : xorSumLoop η [η.xorSumNs] cs1 0
      (List.replicate 8 (Boolean.constant false)) (toChunks 8 bits) with ⟨hash, cs2⟩
  rw [hle] at hx2 hg2 hh2 hiv2
  dsimp only at hx2 hg2 hh2 hiv2
  rw [foldl_zipXor_byteBits] at hh2
  have hhashlen : hash.length = 8 := by
    rw [List.Forall₂.length_eq hh2, byteBits_length]
  obtain ⟨hx3, hg3, hiv3⟩ := pack_spec η [η.packNs] hh2 hg2
    (by intro hc; rw [hc] at hhashlen; simp at hhashlen)
    (by rw [hhashlen]; norm_num [CAPACITY])
  refine ⟨multipack.pack_into_inputs η [η.packNs] cs2 hash, ?_, hg3, ?_⟩
  · unfold synthCore
    rw [hae]
    dsimp only
    have hxs : xor_sum η [η.xorSumNs] cs1 bits = some (hash, cs2) := by
      unfold xor_sum
      rw [if_pos hblen, hle]
    rw [hxs]
  · rw [hiv3, hiv2, hiv1]
    rfl

/-! ## Shape simulation: values and names never affect the constraint shape -/

theorem boolRel_lc {a a' : Boolean} (h : BoolRel a a') (c : F) : a.lc c = a'.lc c := by
  cases h with
  | constant b => rfl
  | is v v' hv => simp [Boolean.lc, hv]
  | not v v' hv => simp [Boolean.lc, hv]

theorem shapeRel_refl (cs : CS) : ShapeRel cs cs := ⟨rfl, rfl, rfl⟩

theorem xorW_rel (cnm cnm' : List String) {cs cs' : CS} {a a' b b' : Boolean}
    (hra : BoolRel a a') (hrb : BoolRel b b') (hcs : ShapeRel cs cs') :
    BoolRel (xorWitnessed cnm cs a b).1 (xorWitnessed cnm' cs' a' b').1 ∧
    ShapeRel (xorWitnessed cnm cs a b).2 (xorWitnessed cnm' cs' a' b').2 := by
  obtain ⟨hc, ha, hi⟩ := hcs
  refine ⟨BoolRel.is _ _ ha, ?_, ?_, ?_⟩
  · show cs.constraints
        ++ [(a.lc 2, b.lc 1, a.lc 1 ++ b.lc 1 ++ [(Var.aux cs.auxVals.length, -1)])]
      = cs'.constraints
        ++ [(a'.lc 2, b'.lc 1, a'.lc 1 ++ b'.lc 1 ++ [(Var.aux cs'.auxVals.length, -1)])]
    rw [hc, ha, boolRel_lc hra 2, boolRel_lc hrb 1, boolRel_lc hra 1]
  · show (cs.auxVals ++ [_]).length = (cs'.auxVals ++ [_]).length
    simp [ha]
  · exact hi

theorem xor_rel (cnm cnm' : List String) {cs cs' : CS} {a a' b b' : Boolean}
    (hra : BoolRel a a') (hrb : BoolRel b b') (hcs : ShapeRel cs cs') :
    BoolRel (Boolean.xor cnm cs a b).1 (Boolean.xor cnm' cs' a' b').1 ∧
    ShapeRel (Boolean.xor cnm cs a b).2 (Boolean.xor cnm' cs' a' b').2 := by
  cases hra with
  | constant u =>
    cases hrb with
    | constant v => cases u <;> cases v <;> exact ⟨BoolRel.constant _, hcs⟩
    | is w w' hw =>
      cases u
      · exact ⟨BoolRel.is w w' hw, hcs⟩
      · exact ⟨BoolRel.not w w' hw, hcs⟩
    | not w w' hw =>
      cases u
      · exact ⟨BoolRel.not w w' hw, hcs⟩
      · exact ⟨BoolRel.is w w' hw, hcs⟩
  | is v v' hv =>
    cases hrb with
    | constant u =>
      cases u
      · exact ⟨BoolRel.is v v' hv, hcs⟩
      · exact ⟨BoolRel.not v v' hv, hcs⟩
    | is w w' hw => exact xorW_rel cnm cnm' (BoolRel.is v v' hv) (BoolRel.is w w' hw) hcs
    | not w w' hw => exact xorW_rel cnm cnm' (BoolRel.is v v' hv) (BoolRel.not w w' hw) hcs
  | not v v' hv =>
    cases hrb with
    | constant u =>
      cases u
      · exact ⟨BoolRel.not v v' hv, hcs⟩
      · exact ⟨BoolRel.is v v' hv, hcs⟩
    | is w w' hw => exact xorW_rel cnm cnm' (BoolRel.not v v' hv) (BoolRel.is w w' hw) hcs
    | not w w' hw => exact xorW_rel cnm cnm' (BoolRel.not v v' hv) (BoolRel.not w w' hw) hcs

theorem xorChunk_rel (cnm cnm' : List String) {acc acc' : List Boolean}
    (hacc : List.Forall₂ BoolRel acc acc') :
    ∀ {chunk chunk' : List Boolean} {cs cs' : CS},
      List.Forall₂ BoolRel chunk chunk' → ShapeRel cs cs' →
      List.Forall₂ BoolRel (xorChunk cnm cs acc chunk).1 (xorChunk cnm' cs' acc' chunk').1 ∧
      ShapeRel (xorChunk cnm cs acc chunk).2 (xorChunk cnm' cs' acc' chunk').2 := by
  induction hacc with
  | nil =>
    intro chunk chunk' cs cs' hch hcs
    exact ⟨List.Forall₂.nil, hcs⟩
  | @cons a a' as as' hra htail ih =>
    intro chunk chunk' cs cs' hch hcs
    cases hch with
    | nil => exact ⟨List.Forall₂.cons hra htail, hcs⟩
    | @cons b b' bs bs' hrb hbs =>
      obtain ⟨hro, hrcs1⟩ := xor_rel cnm cnm' hra hrb hcs
      rcases hxe : Boolean.xor cnm cs a b with ⟨o, cs1⟩
      rcases hxe' : Boolean.xor cnm' cs' a' b' with ⟨o', cs1'⟩
      rw [hxe, hxe'] at hro hrcs1
      dsimp only at hro hrcs1
      obtain ⟨hrrest, hrcs2⟩ := ih hbs hrcs1
      rcases hce : xorChunk cnm cs1 as bs with ⟨rest, cs2⟩
      rcases hce' : xorChunk cnm' cs1' as' bs' with ⟨rest', cs2'⟩
      rw [hce, hce'] at hrrest hrcs2
      dsimp only at hrrest hrcs2
      simp only [xorChunk, hxe, hxe', hce, hce']
      exact ⟨List.Forall₂.cons hro hrrest, hrcs2⟩

theorem xorSumLoop_rel (η η' : Naming) (nm nm' : List String)
    {chunks chunks' : List (List Boolean)}
    (hchs : List.Forall₂ (List.Forall₂ BoolRel) chunks chunks') :
    ∀ {acc acc' : List Boolean} {cs cs' : CS} (i : Nat),
      List.Forall₂ BoolRel acc acc' → ShapeRel cs cs' →
      List.Forall₂ BoolRel (xorSumLoop η nm cs i acc chunks).1
        (xorSumLoop η' nm' cs' i acc' chunks').1 ∧
      ShapeRel (xorSumLoop η nm cs i acc chunks).2
        (xorSumLoop η' nm' cs' i acc' chunks').2 := by
  induction hchs with
  | nil =>
    intro acc acc' cs cs' i hacc hcs
    exact ⟨hacc, hcs⟩
  | @cons ch ch' chs chs' hch htail ih =>
    intro acc acc' cs cs' i hacc hcs
    obtain ⟨hracc1, hrcs1⟩ :=
      xorChunk_rel (nm ++ [η.xorNs i, η.xorCon]) (nm' ++ [η'.xorNs i, η'.xorCon])
        hacc hch hcs
    rcases hxe : xorChunk (nm ++ [η.xorNs i, η.xorCon]) cs acc ch with ⟨acc1, cs1⟩
    rcases hxe' : xorChunk (nm' ++ [η'.xorNs i, η'.xorCon]) cs' acc' ch' with ⟨acc1', cs1'⟩
    rw [hxe, hxe'] at hracc1 hrcs1
    dsimp only at hracc1 hrcs1
    simp only [xorSumLoop, hxe, hxe']
    exact ih (i + 1) hracc1 hrcs1

theorem alloc_rel (cnm cnm' : List String) (v v' : Option Bool) {cs cs' : CS}
    (hcs : ShapeRel cs cs') :
    BoolRel (Boolean.is (AllocatedBit.alloc cnm v cs).1)
      (Boolean.is (AllocatedBit.alloc cnm' v' cs').1) ∧
    ShapeRel (AllocatedBit.alloc cnm v cs).2 (AllocatedBit.alloc cnm' v' cs').2 := by
  obtain ⟨hc, ha, hi⟩ := hcs
  refine ⟨BoolRel.is _ _ ha, ?_, ?_, ?_⟩
  · show cs.constraints ++ [([(Var.aux cs.auxVals.length, 1)],
        [(Var.one, 1), (Var.aux cs.auxVals.length, -1)], [])] = _
    rw [hc, ha]
    rfl
  · show (cs.auxVals ++ [_]).length = (cs'.auxVals ++ [_]).length
    simp [ha]
  · exact hi

theorem allocBits_rel (η η' : Naming) :
    ∀ {vs vs' : List (Option Bool)} {cs cs' : CS} (i : Nat),
      vs.length = vs'.length → ShapeRel cs cs' →
      List.Forall₂ BoolRel (allocBits η cs i vs).1 (allocBits η' cs' i vs').1 ∧
      ShapeRel (allocBits η cs i vs).2 (allocBits η' cs' i vs').2 := by
  intro vs
  induction vs with
  | nil =>
    intro vs' cs cs' i hlen hcs
    cases vs' with
    | nil => exact ⟨List.Forall₂.nil, hcs⟩
    | cons w ws => simp at hlen
  | cons v vs ih =>
    intro vs' cs cs' i hlen hcs
    cases vs' with
    | nil => simp at hlen
    | cons w ws =>
      obtain ⟨hrb, hrcs1⟩ := alloc_rel [η.bitNs i, η.boolCon] [η'.bitNs i, η'.boolCon]
        v w hcs
      rcases hae : AllocatedBit.alloc [η.bitNs i, η.boolCon] v cs with ⟨bit, cs1⟩
      rcases hae' : AllocatedBit.alloc [η'.bitNs i, η'.boolCon] w cs' with ⟨bit', cs1'⟩
      rw [hae, hae'] at hrb hrcs1
      dsimp only at hrb hrcs1
      have hlen' : vs.length = ws.length := by simpa using hlen
      obtain ⟨hrrest, hrcs2⟩ := ih (i + 1) hlen' hrcs1
      rcases hbe : allocBits η cs1 (i + 1) vs with ⟨rest, cs2⟩
      rcases hbe' : allocBits η' cs1' (i + 1) ws with ⟨rest', cs2'⟩
      rw [hbe, hbe'] at hrrest hrcs2
      dsimp only at hrrest hrcs2
      simp only [allocBits, hae, hae', hbe, hbe']
      exact ⟨List.Forall₂.cons hrb hrrest, hrcs2⟩

theorem packLC_rel {chunk chunk' : List Boolean} (hr : List.Forall₂ BoolRel chunk chunk') :
    ∀ c : F, packLC c chunk = packLC c chunk' := by
  induction hr with
  | nil => intro c; rfl
  | cons h _ ih =>
    intro c
    rw [packLC, packLC, boolRel_lc h, ih]

theorem packOne_rel (cnm cnm' : List String) {cs cs' : CS} {chunk chunk' : List Boolean}
    (hr : List.Forall₂ BoolRel chunk chunk') (hcs : ShapeRel cs cs') :
    ShapeRel (multipack.packOne cnm cs chunk) (multipack.packOne cnm' cs' chunk') := by
  obtain ⟨hc, ha, hi⟩ := hcs
  refine ⟨?_, ?_, ?_⟩
  · show cs.constraints ++ [(packLC 1 chunk, [(Var.one, 1)],
        [(Var.input cs.inputVals.length, 1)])] = _
    rw [hc, hi, packLC_rel hr 1]
    rfl
  · exact ha
  · show (cs.inputVals ++ [_]).length = (cs'.inputVals ++ [_]).length
    simp [hi]

theorem packLoop_rel (η η' : Naming) (nm nm' : List String)
    {chunks chunks' : List (List Boolean)}
    (hchs : List.Forall₂ (List.Forall₂ BoolRel) chunks chunks') :
    ∀ {cs cs' : CS} (i : Nat), ShapeRel cs cs' →
      ShapeRel (multipack.packLoop η nm cs i chunks)
        (multipack.packLoop η' nm' cs' i chunks') := by
  induction hchs with
  | nil =>
    intro cs cs' i hcs
    exact hcs
  | @cons ch ch' chs chs' hch _ ih =>
    intro cs cs' i hcs
    simp only [multipack.packLoop]
    exact ih (i + 1) (packOne_rel _ _ hch hcs)

theorem synthCore_rel (η η' : Naming) {cs cs' : CS} {vals vals' : List (Option Bool)}
    (hlen : vals.length = vals'.length) (hcs : ShapeRel cs cs') :
    ShapeRelO (synthCore η cs vals) (synthCore η' cs' vals') := by
  obtain ⟨hrbits, hrcs1⟩ := allocBits_rel η η' 0 hlen hcs
  rcases hae : allocBits η cs 0 vals with ⟨bits, cs1⟩
  rcases hae' : allocBits η' cs' 0 vals' with ⟨bits', cs1'⟩
  rw [hae, hae'] at hrbits hrcs1
  dsimp only at hrbits hrcs1
  have hblen : bits.length = bits'.length := List.Forall₂.length_eq hrbits
  unfold synthCore
  rw [hae, hae']
  dsimp only
  unfold xor_sum
  by_cases hb : bits.length = INPUT_SIZE * 8
  · rw [if_pos hb, if_pos (by rw [← hblen]; exact hb)]
    have hrchunks := forall₂_toChunks (R := BoolRel) 8 bits.length bits bits' rfl hrbits
    have hracc : List.Forall₂ BoolRel (List.replicate 8 (Boolean.constant false))
        (List.replicate 8 (Boolean.constant false)) :=
      List.forall₂_same.mpr fun x hx => by
        rw [List.eq_of_mem_replicate hx]
        exact BoolRel.constant false
    obtain ⟨hrhash, hrcs2⟩ :=
      xorSumLoop_rel η η' [η.xorSumNs] [η'.xorSumNs] hrchunks 0 hracc hrcs1
    rcases hle : xorSumLoop η [η.xorSumNs] cs1 0
        (List.replicate 8 (Boolean.constant false)) (toChunks 8 bits) with ⟨hash, cs2⟩
    rcases hle' : xorSumLoop η' [η'.xorSumNs] cs1' 0
        (List.replicate 8 (Boolean.constant false)) (toChunks 8 bits') with ⟨hash', cs2'⟩
    rw [hle, hle'] at hrhash hrcs2
    dsimp only at hrhash hrcs2
    show ShapeRel (multipack.pack_into_inputs η [η.packNs] cs2 hash)
      (multipack.pack_into_inputs η' [η'.packNs] cs2' hash')
    unfold multipack.pack_into_inputs
    exact packLoop_rel η η' [η.packNs] [η'.packNs]
      (forall₂_toChunks (R := BoolRel) CAPACITY hash.length hash hash' rfl hrhash) 0 hrcs2
  · rw [if_neg hb, if_neg (by rw [← hblen]; exact hb)]
    trivial

/-! ## Wrappers at the level of `MyCircuit.synthesize` -/

theorem synthesize_value (η : Naming) (p : List Nat) (hlen : p.length = INPUT_SIZE) :
    ∃ cs', MyCircuit.synthesize η ⟨some p⟩ CS.empty = some cs' ∧ cs'.good ∧
      cs'.inputVals
        = [some ((bitsVal (byteBits (p.foldl (fun prev next => prev ^^^ next) 0)) : Nat) : F)] := by
  unfold MyCircuit.synthesize
  dsimp only
  rw [bitValues_eq]
  exact synthCore_value η p hlen

theorem synthesize_rel_witness (η : Naming) (p : List Nat) (hlen : p.length = INPUT_SIZE) :
    ShapeRelO (MyCircuit.synthesize η ⟨some p⟩ CS.empty)
      (MyCircuit.synthesize η ⟨none⟩ CS.empty) := by
  unfold MyCircuit.synthesize
  dsimp only
  apply synthCore_rel η η ?_ (shapeRel_refl CS.empty)
  rw [bitValues_eq, List.length_map, flatMap_byteBits_length, hlen, List.length_replicate,
    Nat.mul_comm]

theorem synthesize_rel_names (η η' : Naming) (c : MyCircuit) :
    ShapeRelO (MyCircuit.synthesize η c CS.empty) (MyCircuit.synthesize η' c CS.empty) := by
  unfold MyCircuit.synthesize
  exact synthCore_rel η η' rfl (shapeRel_refl CS.empty)

theorem packChunkF_eq : ∀ (bs : List Bool) (c : F),
    packChunkF c bs = c * ((bitsVal bs : Nat) : F) := by
  intro bs
  induction bs with
  | nil => intro c; simp [packChunkF, bitsVal]
  | cons b t ih =>
    intro c
    rw [packChunkF, ih, bitsVal]
    cases b <;> simp <;> ring

theorem foldl_xor_perm {l l' : List Nat} (hp : l.Perm l') :
    ∀ a : Nat, l.foldl (fun prev next => prev ^^^ next) a
      = l'.foldl (fun prev next => prev ^^^ next) a := by
  induction hp with
  | nil => intro a; rfl
  | cons x _ ih =>
    intro a
    simp only [List.foldl_cons]
    exact ih _
  | swap x y l =>
    intro a
    simp only [List.foldl_cons]
    congr 1
    rw [Nat.xor_assoc, Nat.xor_assoc, Nat.xor_comm y x]
  | trans _ _ ih1 ih2 =>
    intro a
    exact (ih1 a).trans (ih2 a)

theorem xor_getValue (cnm : List String) (cs : CS) {a b : Boolean} {x y : Bool}
    (ha : a.getValue = some x) (hb : b.getValue = some y) :
    (Boolean.xor cnm cs a b).1.getValue = some (Bool.xor x y) := by
  cases a with
  | constant u =>
    simp only [Boolean.getValue, Option.some.injEq] at ha
    subst ha
    cases b with
    | constant v =>
      simp only [Boolean.getValue, Option.some.injEq] at hb
      subst hb
      cases u <;> cases v <;> rfl
    | is b' =>
      simp only [Boolean.getValue] at hb
      cases u
      · simp [Boolean.xor, Boolean.getValue, hb]
      · simp [Boolean.xor, Boolean.getValue, hb]
    | not b' =>
      simp only [Boolean.getValue] at hb
      rcases hv : b'.value with _ | w
      · rw [hv] at hb
        simp at hb
      · rw [hv] at hb
        simp at hb
        cases u
        · simp [Boolean.xor, Boolean.getValue, hv, ← hb]
        · simp [Boolean.xor, Boolean.getValue, hv, ← hb]
  | is a' =>
    cases b with
    | constant v =>
      simp only [Boolean.getValue, Option.some.injEq] at hb
      subst hb
      simp only [Boolean.getValue] at ha
      cases v
      · simp [Boolean.xor, Boolean.getValue, ha]
      · simp [Boolean.xor, Boolean.getValue, ha]
    | is b' =>
      simp only [Boolean.getValue] at ha hb
      show (Boolean.is ⟨_, _⟩).getValue = _
      simp [Boolean.getValue, xorWitnessed, ha, hb]
    | not b' =>
      simp only [Boolean.getValue] at ha hb
      show (Boolean.is ⟨_, _⟩).getValue = _
      simp [Boolean.getValue, xorWitnessed, ha, hb]
  | not a' =>
    cases b with
    | constant v =>
      simp only [Boolean.getValue, Option.some.injEq] at hb
      subst hb
      simp only [Boolean.getValue] at ha
      rcases hv : a'.value with _ | w
      · rw [hv] at ha
        simp at ha
      · rw [hv] at ha
        simp at ha
        cases v
        · simp [Boolean.xor, Boolean.getValue, hv, ← ha]
        · simp [Boolean.xor, Boolean.getValue, hv, ← ha]
    | is b' =>
      simp only [Boolean.getValue] at ha hb
      show (Boolean.is ⟨_, _⟩).getValue = _
      simp [Boolean.getValue, xorWitnessed, ha, hb]
    | not b' =>
      simp only [Boolean.getValue] at ha hb
      show (Boolean.is ⟨_, _⟩).getValue = _
      simp [Boolean.getValue, xorWitnessed, ha, hb]

/-! ## Concrete evaluation of the structure-only run -/

set_option maxRecDepth 1000000 in
set_option maxHeartbeats 4000000 in
theorem structure_eval_facts :
    (MyCircuit.synthesize Naming.std ⟨none⟩ CS.empty).isSome = true ∧
    structureRun.auxVals.length = 504 ∧
    structureRun.inputVals.length = 1 ∧
    structureRun.constraints.length = 505 ∧
    (structureRun.constraints.filter isBoolCon).length = 256 ∧
    (structureRun.constraints.filter isXorCon).length = 248 ∧
    (structureRun.constraints.filter isPackCon).length = 1 ∧
    structureRun.constraintNames.get? 256
      = some ["xor_sum(preimage)", "xor [1]", "xor constraint"] ∧
    structureRun.constraintNames.get? 257
      = some ["xor_sum(preimage)", "xor [1]", "xor constraint"] := by
  decide

/-! ## Helper facts for the claims -/

theorem xor_con_encodes (a b : Boolean) (n : Nat) (d : CS) :
    conSat d (a.lc 2, b.lc 1, a.lc 1 ++ b.lc 1 ++ [(Var.aux n, -1)]) ↔
      d.auxVal n = LinComb.eval d (a.lc 1) + LinComb.eval d (b.lc 1)
        - 2 * (LinComb.eval d (a.lc 1) * LinComb.eval d (b.lc 1)) := by
  unfold conSat
  show LinComb.eval d (a.lc 2) * _ = _ ↔ _
  rw [lc_eval_smul d a 2, eval_append, eval_append]
  have hsing : LinComb.eval d [(Var.aux n, (-1 : F))] = -(d.auxVal n) := by
    simp [LinComb.eval, evalVar]
  rw [hsing]
  constructor
  · intro h
    linear_combination h
  · intro h
    linear_combination h

theorem xorW_C2 (cnm : List String) {cs : CS} {a b : Boolean} {x y : Bool}
    (ha : a.holds cs x) (hb : b.holds cs y) :
    (xorWitnessed cnm cs a b).2.auxVals.length = cs.auxVals.length + 1 ∧
    (xorWitnessed cnm cs a b).2.constraints = cs.constraints ++
      [(a.lc 2, b.lc 1, a.lc 1 ++ b.lc 1 ++ [(Var.aux cs.auxVals.length, -1)])] := by
  obtain ⟨h1, h2, h3, h4⟩ := xorW_fields cnm ha hb
  constructor
  · rw [h1]
    simp
  · exact h3

/-! ## The claims -/

/-- Claim C1: for every 32-byte input, the 8 Boolean outputs of the XOR
gadget (inside the witnessed synthesis of `MyCircuit`) decode via the packer
to exactly the value returned by `native_xor_sum` on the same bytes: the
single public input equals both the natively packed digest and the digest's
field value. -/
theorem claim_C1 (p : List Nat) (hlen : p.length = INPUT_SIZE)
    (hbytes : ∀ b ∈ p, b < 256) :
    ∃ d cs', native_xor_sum p = some d ∧
      MyCircuit.synthesize Naming.std ⟨some p⟩ CS.empty = some cs' ∧
      cs'.inputVals
        = (multipack.compute_multipacking (multipack.bytes_to_bits_le [d])).map some ∧
      cs'.inputVals = [some ((d : Nat) : F)] := by
  obtain ⟨cs', hsyn, hg, hiv⟩ := synthesize_value Naming.std p hlen
  have hdlt : p.foldl (fun prev next => prev ^^^ next) 0 < 256 :=
    foldl_xor_lt p 0 (by norm_num) hbytes
  have hpack : multipack.compute_multipacking
      (multipack.bytes_to_bits_le [p.foldl (fun prev next => prev ^^^ next) 0])
        = [((p.foldl (fun prev next => prev ^^^ next) 0 : Nat) : F)] := by
    have h1 : multipack.bytes_to_bits_le [p.foldl (fun prev next => prev ^^^ next) 0]
        = byteBits (p.foldl (fun prev next => prev ^^^ next) 0) := by
      simp [multipack.bytes_to_bits_le]
    rw [h1]
    unfold multipack.compute_multipacking
    rw [toChunks_single CAPACITY _ (byteBits_ne_nil _)
      (by rw [byteBits_length]; norm_num [CAPACITY])]
    simp [packChunkF_eq, bitsVal_byteBits hdlt]
  refine ⟨p.foldl (fun prev next => prev ^^^ next) 0, cs', ?_, hsyn, ?_, ?_⟩
  · unfold native_xor_sum
    rw [if_pos hlen]
  · rw [hpack, hiv, bitsVal_byteBits hdlt]
    rfl
  · rw [hiv, bitsVal_byteBits hdlt]

/-- Witness for C1 at the demo preimage (after the byte swap of `main`). -/
theorem claim_C1_witness :
    demoSwapped.length = INPUT_SIZE ∧ (∀ b ∈ demoSwapped, b < 256) ∧
    ∃ d cs', native_xor_sum demoSwapped = some d ∧
      MyCircuit.synthesize Naming.std ⟨some demoSwapped⟩ CS.empty = some cs' ∧
      cs'.inputVals
        = (multipack.compute_multipacking (multipack.bytes_to_bits_le [d])).map some ∧
      cs'.inputVals = [some ((d : Nat) : F)] :=
  ⟨by decide, by decide, claim_C1 demoSwapped (by decide) (by decide)⟩

/-- Claim C2: in the XOR-of-two-Booleans rule, with both operand values
witnessed, the witnessed-times-witnessed case allocates exactly one new bit
variable and enforces exactly one multiplication constraint whose
satisfaction under any assignment says `out = a + b - 2ab` (with `Not`
operands substituted as `1 - underlying` inside `Boolean.lc`); every other
case adds no constraint and no variable; the output value is the logical XOR
of the operand values. -/
theorem claim_C2 (cnm : List String) (cs : CS) (a b : Boolean) (x y : Bool)
    (ha : a.holds cs x) (hb : b.holds cs y) :
    ((a.isWitnessed && b.isWitnessed) = true →
      (Boolean.xor cnm cs a b).2.auxVals.length = cs.auxVals.length + 1 ∧
      (Boolean.xor cnm cs a b).2.constraints = cs.constraints ++
        [(a.lc 2, b.lc 1, a.lc 1 ++ b.lc 1 ++ [(Var.aux cs.auxVals.length, -1)])] ∧
      (∀ d : CS,
        conSat d (a.lc 2, b.lc 1, a.lc 1 ++ b.lc 1 ++ [(Var.aux cs.auxVals.length, -1)]) ↔
          d.auxVal cs.auxVals.length
            = LinComb.eval d (a.lc 1) + LinComb.eval d (b.lc 1)
              - 2 * (LinComb.eval d (a.lc 1) * LinComb.eval d (b.lc 1)))) ∧
    ((a.isWitnessed && b.isWitnessed) = false → (Boolean.xor cnm cs a b).2 = cs) ∧
    (Boolean.xor cnm cs a b).1.getValue = some (Bool.xor x y) := by
  refine ⟨?_, ?_, xor_getValue cnm cs (holds_getValue ha) (holds_getValue hb)⟩
  · intro hw
    cases a with
    | constant u => simp [Boolean.isWitnessed] at hw
    | is a' =>
      cases b with
      | constant v => simp [Boolean.isWitnessed] at hw
      | is b' =>
        exact ⟨(xorW_C2 cnm ha hb).1, (xorW_C2 cnm ha hb).2,
          fun d => xor_con_encodes _ _ _ d⟩
      | not b' =>
        exact ⟨(xorW_C2 cnm ha hb).1, (xorW_C2 cnm ha hb).2,
          fun d => xor_con_encodes _ _ _ d⟩
    | not a' =>
      cases b with
      | constant v => simp [Boolean.isWitnessed] at hw
      | is b' =>
        exact ⟨(xorW_C2 cnm ha hb).1, (xorW_C2 cnm ha hb).2,
          fun d => xor_con_encodes _ _ _ d⟩
      | not b' =>
        exact ⟨(xorW_C2 cnm ha hb).1, (xorW_C2 cnm ha hb).2,
          fun d => xor_con_encodes _ _ _ d⟩
  · intro hw
    cases a with
    | constant u =>
      cases b with
      | constant v => cases u <;> cases v <;> rfl
      | is b' => cases u <;> rfl
      | not b' => cases u <;> rfl
    | is a' =>
      cases b with
      | constant v => cases v <;> rfl
      | is b' => simp [Boolean.isWitnessed] at hw
      | not b' => simp [Boolean.isWitnessed] at hw
    | not a' =>
      cases b with
      | constant v => cases v <;> rfl
      | is b' => simp [Boolean.isWitnessed] at hw
      | not b' => simp [Boolean.isWitnessed] at hw

/-- Witness for C2 at a concrete two-variable constraint system. -/
theorem claim_C2_witness :
    ((Boolean.is ⟨some true, 0⟩).holds ⟨[some 1, some 1], [], [], []⟩ true) ∧
    ((Boolean.not ⟨some true, 1⟩).holds ⟨[some 1, some 1], [], [], []⟩ false) ∧
    ((((Boolean.is ⟨some true, 0⟩).isWitnessed
        && (Boolean.not ⟨some true, 1⟩).isWitnessed) = true →
      (Boolean.xor [] ⟨[some 1, some 1], [], [], []⟩ (Boolean.is ⟨some true, 0⟩)
          (Boolean.not ⟨some true, 1⟩)).2.auxVals.length
        = (⟨[some 1, some 1], [], [], []⟩ : CS).auxVals.length + 1 ∧
      (Boolean.xor [] ⟨[some 1, some 1], [], [], []⟩ (Boolean.is ⟨some true, 0⟩)
          (Boolean.not ⟨some true, 1⟩)).2.constraints
        = (⟨[some 1, some 1], [], [], []⟩ : CS).constraints ++
          [((Boolean.is ⟨some true, 0⟩).lc 2, (Boolean.not ⟨some true, 1⟩).lc 1,
            (Boolean.is ⟨some true, 0⟩).lc 1 ++ (Boolean.not ⟨some true, 1⟩).lc 1 ++
              [(Var.aux (⟨[some 1, some 1], [], [], []⟩ : CS).auxVals.length, -1)])] ∧
      (∀ d : CS,
        conSat d ((Boolean.is ⟨some true, 0⟩).lc 2, (Boolean.not ⟨some true, 1⟩).lc 1,
            (Boolean.is ⟨some true, 0⟩).lc 1 ++ (Boolean.not ⟨some true, 1⟩).lc 1 ++
              [(Var.aux (⟨[some 1, some 1], [], [], []⟩ : CS).auxVals.length, -1)]) ↔
          d.auxVal (⟨[some 1, some 1], [], [], []⟩ : CS).auxVals.length
            = LinComb.eval d ((Boolean.is ⟨some true, 0⟩).lc 1)
                + LinComb.eval d ((Boolean.not ⟨some true, 1⟩).lc 1)
              - 2 * (LinComb.eval d ((Boolean.is ⟨some true, 0⟩).lc 1)
                * LinComb.eval d ((Boolean.not ⟨some true, 1⟩).lc 1)))) ∧
    (((Boolean.is ⟨some true, 0⟩).isWitnessed
        && (Boolean.not ⟨some true, 1⟩).isWitnessed) = false →
      (Boolean.xor [] ⟨[some 1, some 1], [], [], []⟩ (Boolean.is ⟨some true, 0⟩)
        (Boolean.not ⟨some true, 1⟩)).2 = ⟨[some 1, some 1], [], [], []⟩) ∧
    (Boolean.xor [] ⟨[some 1, some 1], [], [], []⟩ (Boolean.is ⟨some true, 0⟩)
        (Boolean.not ⟨some true, 1⟩)).1.getValue = some (Bool.xor true false)) :=
  ⟨by decide, by decide,
    claim_C2 [] ⟨[some 1, some 1], [], [], []⟩ (Boolean.is ⟨some true, 0⟩)
      (Boolean.not ⟨some true, 1⟩) true false (by decide) (by decide)⟩

set_option maxRecDepth 100000 in
/-- Claim C3: the witness-less synthesis and any witnessed synthesis of the
same circuit produce constraint systems with the identical constraint ledger
(hence identical constraint counts and shapes) and identical variable
counts. -/
theorem claim_C3 (p : List Nat) (hlen : p.length = INPUT_SIZE) :
    ∃ csW csS,
      MyCircuit.synthesize Naming.std ⟨some p⟩ CS.empty = some csW ∧
      MyCircuit.synthesize Naming.std ⟨none⟩ CS.empty = some csS ∧
      csW.constraints = csS.constraints ∧
      csW.auxVals.length = csS.auxVals.length ∧
      csW.inputVals.length = csS.inputVals.length := by
  obtain ⟨csW, hW, -, -⟩ := synthesize_value Naming.std p hlen
  have hrel := synthesize_rel_witness Naming.std p hlen
  rcases hS : MyCircuit.synthesize Naming.std ⟨none⟩ CS.empty with _ | csS
  · rw [hW, hS] at hrel
    exact False.elim hrel
  · rw [hW, hS] at hrel
    have hrel' : ShapeRel csW csS := hrel
    exact ⟨csW, csS, hW, rfl, hrel'.1, hrel'.2.1, hrel'.2.2⟩

/-- Witness for C3 at the demo preimage. -/
theorem claim_C3_witness :
    demoPreimage.length = INPUT_SIZE ∧
    ∃ csW csS,
      MyCircuit.synthesize Naming.std ⟨some demoPreimage⟩ CS.empty = some csW ∧
      MyCircuit.synthesize Naming.std ⟨none⟩ CS.empty = some csS ∧
      csW.constraints = csS.constraints ∧
      csW.auxVals.length = csS.auxVals.length ∧
      csW.inputVals.length = csS.inputVals.length :=
  ⟨by decide, claim_C3 demoPreimage (by decide)⟩

/-- Claim C4: for every byte value, the native packing path and the
in-circuit packing of the 8 corresponding allocated bits yield the same
single field element, whose value is the byte's numeric value. -/
theorem claim_C4 (b : Nat) (hb : b < 256) :
    multipack.compute_multipacking (multipack.bytes_to_bits_le [b]) = [((b : Nat) : F)] ∧
    (multipack.pack_into_inputs Naming.std ["pack hash"]
        (allocBits Naming.std CS.empty 0 ((byteBits b).map some)).2
        (allocBits Naming.std CS.empty 0 ((byteBits b).map some)).1).inputVals
      = [some ((b : Nat) : F)] := by
  constructor
  · have h1 : multipack.bytes_to_bits_le [b] = byteBits b := by
      simp [multipack.bytes_to_bits_le]
    rw [h1]
    unfold multipack.compute_multipacking
    rw [toChunks_single CAPACITY _ (byteBits_ne_nil _)
      (by rw [byteBits_length]; norm_num [CAPACITY])]
    simp [packChunkF_eq, bitsVal_byteBits hb]
  · obtain ⟨hx1, hg1, hh1⟩ := allocBits_spec Naming.std (byteBits b) CS.empty 0 empty_good
    have hiv1 := allocBits_inputVals Naming.std ((byteBits b).map some) CS.empty 0
    obtain ⟨hx2, hg2, hiv2⟩ := pack_spec Naming.std ["pack hash"] hh1 hg1
      (by
        intro hc
        have hle := List.Forall₂.length_eq hh1
        rw [hc, byteBits_length] at hle
        simp at hle)
      (by
        rw [List.Forall₂.length_eq hh1, byteBits_length]
        norm_num [CAPACITY])
    rw [hiv2, hiv1, bitsVal_byteBits hb]
    rfl

/-- Witness for C4 at the byte value 170. -/
theorem claim_C4_witness :
    170 < 256 ∧
    (multipack.compute_multipacking (multipack.bytes_to_bits_le [170])
        = [((170 : Nat) : F)] ∧
    (multipack.pack_into_inputs Naming.std ["pack hash"]
        (allocBits Naming.std CS.empty 0 ((byteBits 170).map some)).2
        (allocBits Naming.std CS.empty 0 ((byteBits 170).map some)).1).inputVals
      = [some ((170 : Nat) : F)]) :=
  ⟨by decide, claim_C4 170 (by decide)⟩

/-- Claim C5: `native_xor_sum` is invariant under any permutation of the
input bytes, and therefore so is the packed public input computed from the
digest. -/
theorem claim_C5 (l l' : List Nat) (hp : l.Perm l') :
    native_xor_sum l = native_xor_sum l' ∧
    (native_xor_sum l).map
        (fun d => multipack.compute_multipacking (multipack.bytes_to_bits_le [d]))
      = (native_xor_sum l').map
        (fun d => multipack.compute_multipacking (multipack.bytes_to_bits_le [d])) := by
  have h1 : native_xor_sum l = native_xor_sum l' := by
    unfold native_xor_sum
    rw [hp.length_eq, foldl_xor_perm hp 0]
  exact ⟨h1, by rw [h1]⟩

/-- Witness for C5: swapping bytes 3 and 13 of the demo preimage leaves the
digest and the packed public input unchanged. -/
theorem claim_C5_witness :
    demoPreimage.Perm demoSwapped ∧
    (native_xor_sum demoPreimage = native_xor_sum demoSwapped ∧
    (native_xor_sum demoPreimage).map
        (fun d => multipack.compute_multipacking (multipack.bytes_to_bits_le [d]))
      = (native_xor_sum demoSwapped).map
        (fun d => multipack.compute_multipacking (multipack.bytes_to_bits_le [d]))) :=
  ⟨by decide, claim_C5 demoPreimage demoSwapped (by decide)⟩

set_option maxRecDepth 100000 in
/-- Claim C7 (amended): namespace strings carry no semantic weight — two
synthesis runs of the same circuit differing only in their namespace strings
produce constraint systems of identical shape (constraints with their
coefficients, variable counts, input counts).  The uniqueness part of the
original claim is false; see the counterexample. -/
theorem claim_C7 (η η' : Naming) (c : MyCircuit) :
    shapeOf (MyCircuit.synthesize η c CS.empty)
      = shapeOf (MyCircuit.synthesize η' c CS.empty) := by
  have hrel := synthesize_rel_names η η' c
  rcases h1 : MyCircuit.synthesize η c CS.empty with _ | cs1
  · rcases h2 : MyCircuit.synthesize η' c CS.empty with _ | cs2
    · rfl
    · rw [h1, h2] at hrel
      exact False.elim hrel
  · rcases h2 : MyCircuit.synthesize η' c CS.empty with _ | cs2
    · rw [h1, h2] at hrel
      exact False.elim hrel
    · rw [h1, h2] at hrel
      have hrel' : ShapeRel cs1 cs2 := hrel
      show some (cs1.constraints, cs1.auxVals.length, cs1.inputVals.length)
        = some (cs2.constraints, cs2.auxVals.length, cs2.inputVals.length)
      rw [hrel'.1, hrel'.2.1, hrel'.2.2]

/-- Counterexample to C7 as stated: in the structure-only synthesis of the
demo circuit, the constraints at indices 256 and 257 (the first two XOR
constraints of byte 1) carry the same hierarchical namespace path
`xor_sum(preimage) / xor [1] / xor constraint` — the gadget reuses the
namespace `xor [i]` for all 8 bit positions of chunk `i` — so the constraint
identifiers are not unique. -/
theorem claim_C7_counterexample :
    structureRun.constraintNames.get? 256
        = some ["xor_sum(preimage)", "xor [1]", "xor constraint"] ∧
    structureRun.constraintNames.get? 257
        = some ["xor_sum(preimage)", "xor [1]", "xor constraint"] ∧
    ¬ structureRun.constraintNames.Nodup := by
  obtain ⟨-, -, -, -, -, -, -, h256, h257⟩ := structure_eval_facts
  refine ⟨h256, h257, fun hnd => ?_⟩
  obtain ⟨hlt, -⟩ := List.get?_eq_some.mp h257
  exact List.nodup_iff_get?_ne_get?.mp hnd 256 257 (by omega) hlt (h256.trans h257.symm)

/-- Claim C8: for every 32-byte preimage, the assignment produced by the
witnessed synthesis satisfies every constraint it emits, so proving cannot
fail with an unsatisfiable witness. -/
theorem claim_C8 (p : List Nat) (hlen : p.length = INPUT_SIZE) :
    ∃ cs', MyCircuit.synthesize Naming.std ⟨some p⟩ CS.empty = some cs' ∧
      cs'.satisfied := by
  obtain ⟨cs', h1, hg, -⟩ := synthesize_value Naming.std p hlen
  exact ⟨cs', h1, hg.2⟩

/-- Witness for C8 at the demo preimage. -/
theorem claim_C8_witness :
    demoSwapped.length = INPUT_SIZE ∧
    ∃ cs', MyCircuit.synthesize Naming.std ⟨some demoSwapped⟩ CS.empty = some cs' ∧
      cs'.satisfied :=
  ⟨by decide, claim_C8 demoSwapped (by decide)⟩

set_option maxRecDepth 100000 in
/-- Claim C9: each synthesis, witnessed or not, allocates exactly
256 + 248 = 504 auxiliary bit variables and one public input, and emits
exactly 256 booleanity constraints, 248 XOR constraints and 1 packing
constraint (505 in total): the 8 XORs of byte 0 against the
`Constant(false)` accumulator emit nothing. -/
theorem claim_C9 (p : List Nat) (hlen : p.length = INPUT_SIZE) :
    ∃ csW csS,
      MyCircuit.synthesize Naming.std ⟨some p⟩ CS.empty = some csW ∧
      MyCircuit.synthesize Naming.std ⟨none⟩ CS.empty = some csS ∧
      csW.auxVals.length = 504 ∧ csS.auxVals.length = 504 ∧
      csW.inputVals.length = 1 ∧ csS.inputVals.length = 1 ∧
      csW.constraints.length = 505 ∧ csS.constraints.length = 505 ∧
      (csW.constraints.filter isBoolCon).length = 256 ∧
      (csS.constraints.filter isBoolCon).length = 256 ∧
      (csW.constraints.filter isXorCon).length = 248 ∧
      (csS.constraints.filter isXorCon).length = 248 ∧
      (csW.constraints.filter isPackCon).length = 1 ∧
      (csS.constraints.filter isPackCon).length = 1 := by
  obtain ⟨csW, hW, -, -⟩ := synthesize_value Naming.std p hlen
  obtain ⟨hsome, h504, h1i, h505, hb256, hx248, hp1, -, -⟩ := structure_eval_facts
  rcases hS : MyCircuit.synthesize Naming.std ⟨none⟩ CS.empty with _ | csS
  · rw [hS] at hsome
    simp at hsome
  · have hrun : structureRun = csS := by
      unfold structureRun
      rw [hS]
      rfl
    rw [hrun] at h504 h1i h505 hb256 hx248 hp1
    have hrel := synthesize_rel_witness Naming.std p hlen
    rw [hW, hS] at hrel
    have hrel' : ShapeRel csW csS := hrel
    obtain ⟨hc, ha, hi⟩ := hrel'
    refine ⟨csW, csS, hW, rfl, ?_, h504, ?_, h1i, ?_, h505, ?_, hb256, ?_, hx248, ?_, hp1⟩
    · rw [ha, h504]
    · rw [hi, h1i]
    · rw [hc, h505]
    · rw [hc]
      exact hb256
    · rw [hc]
      exact hx248
    · rw [hc]
      exact hp1

/-- Witness for C9 at the demo preimage. -/
theorem claim_C9_witness :
    demoPreimage.length = INPUT_SIZE ∧
    ∃ csW csS,
      MyCircuit.synthesize Naming.std ⟨some demoPreimage⟩ CS.empty = some csW ∧
      MyCircuit.synthesize Naming.std ⟨none⟩ CS.empty = some csS ∧
      csW.auxVals.length = 504 ∧ csS.auxVals.length = 504 ∧
      csW.inputVals.length = 1 ∧ csS.inputVals.length = 1 ∧
      csW.constraints.length = 505 ∧ csS.constraints.length = 505 ∧
      (csW.constraints.filter isBoolCon).length = 256 ∧
      (csS.constraints.filter isBoolCon).length = 256 ∧
      (csW.constraints.filter isXorCon).length = 248 ∧
      (csS.constraints.filter isXorCon).length = 248 ∧
      (csW.constraints.filter isPackCon).length = 1 ∧
      (csS.constraints.filter isPackCon).length = 1 :=
  ⟨by decide, claim_C9 demoPreimage (by decide)⟩

/-- Claim C10: `native_xor_sum` rejects (panics on, modelled as `none`)
exactly the inputs whose length is not 32, and `xor_sum` rejects exactly the
inputs whose length is not 256; under the documented preconditions neither
function panics. -/
theorem claim_C10 (data : List Nat) (η : Naming) (nm : List String) (cs : CS)
    (bits : List Boolean) :
    (native_xor_sum data = none ↔ data.length ≠ INPUT_SIZE) ∧
    (xor_sum η nm cs bits = none ↔ bits.length ≠ INPUT_SIZE * 8) := by
  constructor
  · unfold native_xor_sum
    by_cases h : data.length = INPUT_SIZE <;> simp [h]
  · unfold xor_sum
    by_cases h : bits.length = INPUT_SIZE * 8 <;> simp [h]
